import Mathlib

/-!
# A verification development for the `format_blocks` layout-optimizer library

This file gives a shallow embedding, in Lean 4, of the core of the
`format_blocks` pretty-printing library (`base.py`, `blocks.py`, `extras.py`)
and settles a list of claims about it.

Conventions of the embedding:

* Python integers (margins, knots, spans) are embedded as `Int`/`Nat`; the
  cost arithmetic, done in IEEE-754 doubles by the implementation, is embedded
  as exact rational arithmetic (`ℚ`), the ideal semantics of the formulas in
  the source.
* The cost-function algebra (`Solution`, `WithRestOfLine`, `VSumSolution`,
  `MinSolution`, `PlusConst`, `SolutionFactory`) lives in `support.py`, which
  is not part of the sources under verification; those definitions are
  modelled from the specification's description of them (each such definition
  carries a doc comment saying so).
* Layout computation is pure, so the memoizing `OptLayout` wrapper computes
  the same solutions as the underlying `DoOptLayout`; block layout is embedded
  as the pure recursion `doOptLayout`, and the memo table itself is modelled
  separately (`optLayoutMemo`) for the claim about memoization.
* Python `assert` failures / crashes on unreachable code paths (e.g. an empty
  composite block, which the constructors forbid) are modelled by returning
  `Solution.degenerate`; no claim exercises those paths.
-/

/-- Modelled from the spec: `LayoutElement` is a tagged value, either literal
text or a line break followed by `indent` leading spaces (default 0). -/
inductive LayoutElement where
  | str (s : String)
  | newline (indent : Nat)
deriving DecidableEq, Repr

/-- Modelled from the spec: a `Layout` is an ordered sequence of
`LayoutElement`s. -/
structure Layout where
  elems : List LayoutElement
deriving DecidableEq, Repr

instance : Inhabited Layout := ⟨⟨[]⟩⟩

/-- Concatenation of layouts (the `concat(self.layout, rest.layout)` of the
spec's horizontal composition). -/
def Layout.append (a b : Layout) : Layout := ⟨a.elems ++ b.elems⟩

/-- Modelled from the spec: a `Solution` is a piecewise-linear convex cost
function of the starting column, stored as five parallel sequences indexed by
knot. -/
structure Solution where
  knots : List ℚ
  spans : List Nat
  costs : List ℚ
  slopes : List ℚ
  layouts : List Layout
deriving DecidableEq, Repr

/-- A stand-in value for code paths where the Python implementation would
crash (failed `assert`, `IndexError`, attribute error on `None`); no
well-formed block reaches these paths. -/
def Solution.degenerate : Solution := ⟨[0], [0], [0], [0], [⟨[]⟩]⟩

instance : Inhabited Solution := ⟨Solution.degenerate⟩

/-- Index of the segment containing column `k`: the last knot index whose knot
is `≤ k` (0 if there is none). -/
def Solution.segIdx (s : Solution) (k : ℚ) : Nat :=
  match (s.knots.enum.filter (fun p => p.2 ≤ k)).getLast? with
  | some p => p.1
  | none => 0

/-- Modelled from the spec: `value(k) = cost_at_knot[i] + slope[i] · (k − knot[i])`
on the segment `i` containing `k`. -/
def Solution.valueAt (s : Solution) (k : ℚ) : ℚ :=
  let i := s.segIdx k
  s.costs.getD i 0 + s.slopes.getD i 0 * (k - s.knots.getD i 0)

/-- The span on the segment containing column `k`. -/
def Solution.spanAt (s : Solution) (k : ℚ) : Nat :=
  s.spans.getD (s.segIdx k) 0

/-- The slope on the segment containing column `k`. -/
def Solution.slopeAt (s : Solution) (k : ℚ) : ℚ :=
  s.slopes.getD (s.segIdx k) 0

/-- The witnessing layout on the segment containing column `k`. -/
def Solution.layoutAt (s : Solution) (k : ℚ) : Layout :=
  s.layouts.getD (s.segIdx k) ⟨[]⟩

/-- Insert a value into an ascending duplicate-free list, keeping it
ascending and duplicate-free. -/
def insertSorted (x : ℚ) : List ℚ → List ℚ
  | [] => [x]
  | y :: rest =>
    if x < y then x :: y :: rest
    else if x = y then y :: rest
    else y :: insertSorted x rest

/-- Sorted list of the distinct elements of `l` (ascending). -/
def dedupSort (l : List ℚ) : List ℚ :=
  l.foldr insertSorted []

/-- Modelled from the spec: `plus_const(c)` shifts all `cost_at_knot` by `c`;
knots, spans, slopes and layouts are unchanged. -/
def Solution.PlusConst (s : Solution) (c : ℚ) : Solution :=
  { s with costs := s.costs.map (fun x => x + c) }

/-- The candidate knots contributed by the shifted right-hand function in
horizontal composition: a knot `k2` of `rest` induces a knot at `k2 − span[i]`
whenever that column falls in segment `i` of `self`. -/
def shiftedKnots (s rest : Solution) : List ℚ :=
  (s.knots.enum.map (fun p =>
    let a := p.2
    let b := s.knots[p.1 + 1]?
    let sp : ℚ := (s.spans.getD p.1 0 : ℚ)
    rest.knots.filterMap (fun k2 =>
      let c := k2 - sp
      if a ≤ c ∧ (b.all (fun bb => decide (c < bb))) = true then some c
      else none))).flatten

/-- Modelled from the spec: horizontal composition `with_rest_of_line`.
If `rest` is `None`, the result is `self`.  Otherwise a knot is emitted
whenever `self` or the shifted `rest` has one, and at each knot `k` the
combined cost/slope/span/layout is the sum (resp. concatenation) of `self` at
`k` and `rest` at `k + self.span_at(k)`. -/
def Solution.WithRestOfLine (s : Solution) : Option Solution → Solution
  | none => s
  | some r =>
    let ks := dedupSort (s.knots ++ shiftedKnots s r)
    { knots := ks
      spans := ks.map (fun k => s.spanAt k + r.spanAt (k + (s.spanAt k : ℚ)))
      costs := ks.map (fun k => s.valueAt k + r.valueAt (k + (s.spanAt k : ℚ)))
      slopes := ks.map (fun k => s.slopeAt k + r.slopeAt (k + (s.spanAt k : ℚ)))
      layouts := ks.map (fun k =>
        Layout.append (s.layoutAt k) (r.layoutAt (k + (s.spanAt k : ℚ)))) }

/-- Modelled from the spec: the layout elements contributed by the second and
subsequent lines of a vertical sum: each following line is preceded by a
newline whose indent is the column at which that line begins (column 0). -/
def vsumTail (rest : List Solution) : List LayoutElement :=
  (rest.map (fun s => LayoutElement.newline 0 :: (s.layoutAt 0).elems)).flatten

/-- The block tree: leaves `text` and `verb`, internal nodes `line`, `choice`,
`stack`, `wrap` and (from `extras.py`) `joinedLine`.  The `joiner` argument of
`JoinedLineBlock`, a string or a block in Python (a string being wrapped in
`TextBlock` before use), is embedded as a block. -/
inductive Block where
  | text (text : String) (is_breaking : Bool)
  | verb (lines : List String) (is_breaking : Bool) (first_nl : Bool)
  | line (elements : List Block)
  | choice (elements : List Block)
  | stack (elements : List Block) (break_mult : ℚ)
  | wrap (elements : List Block) (sep : String) (break_mult : ℚ) (pre : Option String)
  | joinedLine (elements : List Block) (joiner : Block) (join_breaking : Bool)

mutual

/-- `is_breaking` of a block: leaves carry their flag; a composite block is
breaking iff its last element is (set in `CompositeLayoutBlock.__init__`). -/
def Block.isBreaking : Block → Bool
  | .text _ b => b
  | .verb _ b _ => b
  | .line es => Block.lastBreaking es
  | .choice es => Block.lastBreaking es
  | .stack es _ => Block.lastBreaking es
  | .wrap es _ _ _ => Block.lastBreaking es
  | .joinedLine es _ _ => Block.lastBreaking es

/-- `True if self.elements and self.elements[-1].is_breaking else False`. -/
def Block.lastBreaking : List Block → Bool
  | [] => false
  | [e] => e.isBreaking
  | _ :: e :: rest => Block.lastBreaking (e :: rest)

end

mutual

/-- A size measure on blocks used for termination of the layout recursion;
`joinedLine` is weighted so that the `LineBlock` it builds (elements
interleaved with copies of the joiner) is strictly smaller. -/
def Block.msize : Block → Nat
  | .text _ _ => 1
  | .verb _ _ _ => 1
  | .line es => 1 + Block.msizeList es
  | .choice es => 1 + Block.msizeList es
  | .stack es _ => 1 + Block.msizeList es
  | .wrap es _ _ _ => 1 + Block.msizeList es
  | .joinedLine es j _ => 2 + Block.msizeList es + es.length * Block.msize j

/-- Sum of `Block.msize` over a list. -/
def Block.msizeList : List Block → Nat
  | [] => 0
  | b :: rest => Block.msize b + Block.msizeList rest

end

/-- Every block has positive measure. -/
def Block.msize_pos : ∀ b : Block, 1 ≤ b.msize := by
  intro b
  cases b <;> (simp [Block.msize]; try omega)

/-- A member of a list is bounded by the list's measure. -/
def Block.msize_le_of_mem : ∀ {b : Block} {l : List Block}, b ∈ l →
    Block.msize b ≤ Block.msizeList l := by
  intro b l h
  induction l with
  | nil => cases h
  | cons a rest ih =>
    rcases List.mem_cons.mp h with rfl | hm
    · simp [Block.msizeList]
    · have := ih hm
      simp [Block.msizeList]
      omega

/-- The hook which may re-partition element-lines, constrained (as the spec
says: "a re-partitioning") to produce lines whose blocks all come from the
input lines. -/
def BreakHook : Type :=
  { f : List (List Block) → List (List Block) //
    ∀ ls b, b ∈ (f ls).flatten → b ∈ ls.flatten }

/-- The cost parameters of `base.Options`, with the source's defaults
(`0.05 = 1/20`, `1e-3 = 1/1000` as exact rationals). -/
structure Options where
  margin_0 : ℤ := 0
  margin_0_cost : ℚ := 1/20
  margin_1 : ℤ := 80
  margin_1_cost : ℚ := 100
  break_cost : ℚ := 2
  late_pack_cost : ℚ := 1/1000
  break_element_lines : Option BreakHook := none

/-- The invariants of §3.1, asserted by `Options.Check`. -/
def Options.Valid (o : Options) : Prop :=
  0 ≤ o.margin_0 ∧ o.margin_0 ≤ o.margin_1 ∧ 0 ≤ o.margin_0_cost ∧
    0 ≤ o.margin_1_cost ∧ 0 ≤ o.break_cost ∧ 0 ≤ o.late_pack_cost

instance (o : Options) : Decidable o.Valid := by
  unfold Options.Valid; infer_instance

/-- `Options.Check` (from `base.py`): asserts each invariant in order and
raises `ValueError("Illegal option value for '<name>'")` at the first
violation; embedded as `Except` carrying the failing field name. -/
def Options.Check (o : Options) : Except String Unit :=
  if ¬ (o.margin_0 ≥ 0) then .error "margin_0"
  else if ¬ (o.margin_1 ≥ o.margin_0) then .error "margin_1"
  else if ¬ (o.margin_0_cost ≥ 0) then .error "margin_0_cost"
  else if ¬ (o.margin_1_cost ≥ 0) then .error "margin_1_cost"
  else if ¬ (o.break_cost ≥ 0) then .error "break_cost"
  else if ¬ (o.late_pack_cost ≥ 0) then .error "late_pack_cost"
  else .ok ()

/-- Modelled from the spec: `v_sum` stacks a list of solutions as successive
lines.  The combined function has the knots of the first solution; each
segment's cost gains the value at column 0 of every later solution, the slope
is unchanged, the span is the last solution's span at 0, and the layout is the
first solution's layout followed, for each later solution, by a newline and
that solution's layout at 0.  An empty list yields `none`. -/
def VSumSolution (solns : List Solution) (_o : Options) : Option Solution :=
  match solns with
  | [] => none
  | s0 :: rest =>
    let tailVal : ℚ := (rest.map (fun s => s.valueAt 0)).sum
    let tailLay : List LayoutElement := vsumTail rest
    let lastSpan : Nat := ((rest.getLast?).getD s0).spanAt 0
    some { knots := s0.knots
           spans := s0.knots.map (fun _ => lastSpan)
           costs := s0.costs.map (fun c => c + tailVal)
           slopes := s0.slopes
           layouts := s0.layouts.map (fun L => ⟨L.elems ++ tailLay⟩) }

/-- Index of a minimum-value candidate at column `k` (first such index, the
spec's tie-break "prefer the earlier candidate in input order"). -/
def argminAt (cs : List Solution) (k : ℚ) : Nat :=
  ((List.range cs.length).foldl (fun best j =>
    match best with
    | none => some j
    | some q =>
      if (cs.getD j Solution.degenerate).valueAt k <
          (cs.getD q Solution.degenerate).valueAt k then some j else some q)
    none).getD 0

/-- The column at which candidate `j`'s line crosses below the current winner
`w`, both taken as linear on the segment starting at `a`; `none` when `j`
never crosses below `w` to the right of `a`. -/
def crossingCol (cs : List Solution) (w j : Nat) (a : ℚ) : Option ℚ :=
  let sw := (cs.getD w Solution.degenerate).slopeAt a
  let sj := (cs.getD j Solution.degenerate).slopeAt a
  let vw := (cs.getD w Solution.degenerate).valueAt a
  let vj := (cs.getD j Solution.degenerate).valueAt a
  if sj < sw ∧ vw ≤ vj then some (a + (vj - vw) / (sw - sj)) else none

/-- All crossings strictly inside the interval `(a, b)` where some candidate
overtakes the winner `w`. -/
def crossCands (cs : List Solution) (w : Nat) (a : ℚ) (b : Option ℚ) :
    List (ℚ × Nat) :=
  (List.range cs.length).filterMap (fun j =>
    if j = w then none
    else match crossingCol cs w j a with
      | none => none
      | some c =>
        if decide (a < c) && b.all (fun bb => decide (c < bb)) then some (c, j)
        else none)

/-- Minimum of a list of (column, index) pairs by column, keeping the earlier
index on ties. -/
def pickMin (l : List (ℚ × Nat)) : Option (ℚ × Nat) :=
  l.foldl (fun best p =>
    match best with
    | none => some p
    | some q => if p.1 < q.1 then some p else some q) none

/-- The earliest crossing strictly inside `(a, b)` at which the argmin
changes away from `w`. -/
def earliestCrossing (cs : List Solution) (w : Nat) (a : ℚ) (b : Option ℚ) :
    Option (ℚ × Nat) :=
  pickMin (crossCands cs w a b)

/-- One interval of the lower envelope: starting at `a` with winner `w`, emit
a piece, then recurse from each crossing where the winner changes (`fuel`
bounds the number of pieces; `cs.length` suffices for linear pieces). -/
def ipGo (cs : List Solution) (b : Option ℚ) : Nat → ℚ → Nat → List (ℚ × Nat)
  | 0, a, w => [(a, w)]
  | fuel + 1, a, w =>
    match earliestCrossing cs w a b with
    | none => [(a, w)]
    | some (c, j) => (a, w) :: ipGo cs b fuel c j

/-- The pieces of the lower envelope on the interval `[a, b)`. -/
def intervalPieces (cs : List Solution) (a : ℚ) (b : Option ℚ) :
    List (ℚ × Nat) :=
  ipGo cs b cs.length a (argminAt cs a)

/-- The pieces of the lower envelope over the whole merged knot list. -/
def envAll (cs : List Solution) : List ℚ → List (ℚ × Nat)
  | [] => []
  | [a] => intervalPieces cs a none
  | a :: b :: rest => intervalPieces cs a (some b) ++ envAll cs (b :: rest)

/-- The merged knot set of a list of solutions, in ascending order. -/
def mergedKnots (cs : List Solution) : List ℚ :=
  dedupSort (cs.flatMap Solution.knots)

/-- Modelled from the spec: `min_solution` — the lower envelope of a list of
piecewise-linear functions.  Advance through the merged knot set, pick the
minimum-value candidate on each interval (ties to the earlier candidate), and
add a synthesized knot at each crossing lying strictly inside an interval. -/
def MinSolution (cs : List Solution) (_o : Options) : Solution :=
  match cs with
  | [] => Solution.degenerate
  | _ =>
    let pieces := envAll cs (mergedKnots cs)
    { knots := pieces.map Prod.fst
      spans := pieces.map (fun p => (cs.getD p.2 Solution.degenerate).spanAt p.1)
      costs := pieces.map (fun p => (cs.getD p.2 Solution.degenerate).valueAt p.1)
      slopes := pieces.map (fun p => (cs.getD p.2 Solution.degenerate).slopeAt p.1)
      layouts := pieces.map (fun p => (cs.getD p.2 Solution.degenerate).layoutAt p.1) }

/-- Modelled from the spec: the append-only `SolutionFactory` builder used by
`Text` and `Verb` (one entry per knot). -/
structure SolutionFactory where
  entries : List (ℚ × Nat × ℚ × ℚ × Layout)

/-- `SolutionFactory.Append(knot, span, cost, slope, layout)`. -/
def SolutionFactory.Append (sf : SolutionFactory) (k : ℚ) (sp : Nat)
    (c sl : ℚ) (l : Layout) : SolutionFactory :=
  ⟨sf.entries ++ [(k, sp, c, sl, l)]⟩

/-- `SolutionFactory.MkSolution`: package the accumulated entries. -/
def SolutionFactory.MkSolution (sf : SolutionFactory) (_o : Options) : Solution :=
  { knots := sf.entries.map (fun e => e.1)
    spans := sf.entries.map (fun e => e.2.1)
    costs := sf.entries.map (fun e => e.2.2.1)
    slopes := sf.entries.map (fun e => e.2.2.2.1)
    layouts := sf.entries.map (fun e => e.2.2.2.2) }

/-- `TextBlock.DoOptLayout` before composition with the continuation
(from `blocks.py`): the 1-, 2- or 3-knot solution for an unbroken string,
depending on how its length compares with the margins.  NOTE: the first
branch multiplies the hard-margin overflow by `options.margin_1` (the margin
value), exactly as the source does. -/
def textSolution (text : String) (o : Options) : Solution :=
  let span := text.length
  let layout : Layout := ⟨[LayoutElement.str text]⟩
  if (span : ℤ) ≥ o.margin_1 then
    { knots := [0]
      spans := [span]
      costs := [((span : ℚ) - (o.margin_0 : ℚ)) * o.margin_0_cost +
        ((span : ℚ) - (o.margin_1 : ℚ)) * (o.margin_1 : ℚ)]
      slopes := [o.margin_0_cost + o.margin_1_cost]
      layouts := [layout] }
  else if (span : ℤ) ≥ o.margin_0 then
    { knots := [0, (o.margin_1 : ℚ) - (span : ℚ)]
      spans := [span, span]
      costs := [((span : ℚ) - (o.margin_0 : ℚ)) * o.margin_0_cost,
        ((o.margin_1 : ℚ) - (o.margin_0 : ℚ)) * o.margin_0_cost]
      slopes := [o.margin_0_cost, o.margin_0_cost + o.margin_1_cost]
      layouts := [layout, layout] }
  else
    { knots := [0, (o.margin_0 : ℚ) - (span : ℚ), (o.margin_1 : ℚ) - (span : ℚ)]
      spans := [span, span, span]
      costs := [0, 0, ((o.margin_1 : ℚ) - (o.margin_0 : ℚ)) * o.margin_0_cost]
      slopes := [0, o.margin_0_cost, o.margin_0_cost + o.margin_1_cost]
      layouts := [layout, layout, layout] }

/-- `TextBlock.DoOptLayout`: the text solution horizontally composed with the
continuation. -/
def textDoOpt (t : String) (o : Options) (r : Option Solution) : Solution :=
  (textSolution t o).WithRestOfLine r

/-- `WrapBlock.DoOptLayout`'s prefix layout (from `blocks.py` lines
255-257): `TextBlock(self.prefix).DoOptLayout(None, options) if self.prefix
else None` — a falsy prefix, absent or the empty string, yields no prefix
layout. -/
def prefixLayout (pre : Option String) (o : Options) : Option Solution :=
  match pre with
  | none => none
  | some p => if p = "" then none else some (textDoOpt p o none)

/-- `VerbBlock.DoOptLayout` (from `blocks.py`): the multi-line verbatim
layout attached to a flat knot structure built through the factory; the
continuation is never used. -/
def verbSolution (lines : List String) (first_nl : Bool) (o : Options) :
    Solution :=
  let l_elts : List LayoutElement :=
    (lines.enum.map (fun p =>
      (if p.1 > 0 || first_nl then [LayoutElement.newline 0] else []) ++
        [LayoutElement.str p.2])).flatten
  let layout : Layout := ⟨l_elts⟩
  let span : Nat := 0
  let sf : SolutionFactory := ⟨[]⟩
  let sf := if 0 < o.margin_0 then sf.Append 0 span 0 0 layout else sf
  let sf := sf.Append ((o.margin_0 : ℚ) - (span : ℚ)) span 0 o.margin_0_cost layout
  let sf := sf.Append ((o.margin_1 : ℚ) - (span : ℚ)) span
    (((o.margin_1 : ℚ) - (o.margin_0 : ℚ)) * o.margin_0_cost)
    (o.margin_0_cost + o.margin_1_cost) layout
  sf.MkSolution o

/-- `LineBlock.DoOptLayout`'s splitting of children into element-lines: a new
line is started after each non-final child whose `is_breaking` is true.  The
result is bundled with the facts that the lines flatten back to the input and
that (for nonempty input) every line is nonempty. -/
def splitLines : (es : List Block) →
    { ls : List (List Block) //
      ls.flatten = es ∧ ∀ ln ∈ ls, es ≠ [] → ln ≠ [] }
  | [] => ⟨[[]], rfl, fun _ _ hne => absurd rfl hne⟩
  | [e] => ⟨[[e]], rfl, by intro ln h _; simp at h; subst h; simp⟩
  | e :: e2 :: rest =>
    let prev := splitLines (e2 :: rest)
    if e.isBreaking then
      ⟨[e] :: prev.1, by simp [prev.2.1], by
        intro ln hln _
        rcases List.mem_cons.mp hln with rfl | hm
        · simp
        · exact prev.2.2 ln hm (List.cons_ne_nil e2 rest)⟩
    else
      match prev with
      | ⟨[], h, _⟩ => by simp at h
      | ⟨l :: ls, h, hne⟩ =>
        ⟨(e :: l) :: ls, by simpa using h, by
          intro ln hln _
          rcases List.mem_cons.mp hln with rfl | hm
          · simp
          · exact hne ln (List.mem_cons_of_mem l hm) (List.cons_ne_nil e2 rest)⟩

/-- The element-lines actually used by `LineBlock.DoOptLayout`: the split
lines, passed through the `break_element_lines` hook when it is set and more
than one line exists; bundled with the fact that every block in them is one
of the original children. -/
def hookLines (o : Options) (es : List Block) :
    { ls : List (List Block) // ∀ b ∈ ls.flatten, b ∈ es } :=
  let sp := splitLines es
  if 1 < sp.1.length then
    match o.break_element_lines with
    | some f =>
      ⟨f.1 sp.1, fun b hb => by
        have h2 := f.2 sp.1 b hb
        rw [sp.2.1] at h2
        exact h2⟩
    | none => ⟨sp.1, fun b hb => by rw [sp.2.1] at hb; exact hb⟩
  else ⟨sp.1, fun b hb => by rw [sp.2.1] at hb; exact hb⟩

/-- A concrete re-partitioning hook (used to exhibit the effect of
`break_element_lines`): merge all element-lines into a single line. -/
def mergeAllHook : BreakHook :=
  ⟨fun ls => [ls.flatten], by intro ls b hb; simpa using hb⟩

/-- `JoinedLineBlock.CompositeOptLayout`'s joined list: each non-last element
is followed by the joiner when it is not breaking (or unconditionally when
`join_breaking` is set); the last element is appended as is.  No element is
filtered out. -/
def joinList (j : Block) (jb : Bool) : List Block → List Block
  | [] => []
  | [e] => [e]
  | e :: e2 :: rest =>
    e :: ((if !e.isBreaking || jb then [j] else []) ++ joinList j jb (e2 :: rest))

/-- Measure of a concatenation. -/
def Block.msizeList_append : ∀ l1 l2 : List Block,
    Block.msizeList (l1 ++ l2) = Block.msizeList l1 + Block.msizeList l2 := by
  intro l1 l2
  induction l1 with
  | nil => simp [Block.msizeList]
  | cons a rest ih => simp [Block.msizeList, ih]; omega

/-- The measure of a joined list is bounded by the elements plus one joiner
per element. -/
def joinList_msize : ∀ (j : Block) (jb : Bool) (es : List Block),
    Block.msizeList (joinList j jb es) ≤
      Block.msizeList es + es.length * Block.msize j := by
  intro j jb es
  induction es with
  | nil => simp [joinList, Block.msizeList]
  | cons e rest ih =>
    cases rest with
    | nil => simp [joinList, Block.msizeList]
    | cons e2 rest2 =>
      have hj : 1 ≤ Block.msize j := Block.msize_pos j
      have hmul : (rest2.length + 1 + 1) * Block.msize j =
          (rest2.length + 1) * Block.msize j + Block.msize j := by ring
      simp only [joinList, Block.msizeList, List.length_cons,
        Block.msizeList_append] at *
      by_cases hb : (!e.isBreaking || jb) = true
      · rw [if_pos hb]
        simp only [Block.msizeList]
        omega
      · rw [if_neg hb]
        simp only [Block.msizeList]
        omega


/-- A wrapped line is opened with the prefix layout (when one is set)
composed with its first element (`prefix_layout.WithRestOfLine(elt_layouts[i])
if prefix else elt_layouts[i]` in the source). -/
def specInitLine (preL : Option Solution) (s : Solution) : Solution :=
  match preL with
  | none => s
  | some p => p.WithRestOfLine (some s)

mutual

/-- `WrapBlock.DoOptLayout`'s dynamic program, expressed over the suffix of
(precomputed element layout, `is_breaking`) pairs it still has to place:
`wrapSuffix … l` is the optimum layout of the elements of `l` (the
`wrap_solutions[i]` of the source for `l` the last `n − i` elements).  A line
is opened with the prefix layout composed with the first element, and the
candidate list is built by `candLoop`. -/
def wrapSuffix (sepL : Solution) (preL : Option Solution) (bm : ℚ)
    (o : Options) (rest : Option Solution) :
    List (Solution × Bool) → Solution
  | [] => Solution.degenerate
  | (s, brk) :: tail =>
    MinSolution
      (candLoop sepL preL bm o rest (specInitLine preL s) brk tail) o
termination_by l => (l.length, 0)

/-- The candidate-building loop of `WrapBlock.DoOptLayout`: given the line
built so far, whether its last element is breaking, and the elements not yet
on the line, emit the break-here candidate (vertical sum with the optimal
layout of the remaining elements, plus the break and late-pack costs), stop
after it if the line's last element mandates a break, otherwise extend the
line with a separator and the next element; when the elements run out, the
final candidate composes the line with the continuation. -/
def candLoop (sepL : Solution) (preL : Option Solution) (bm : ℚ)
    (o : Options) (rest : Option Solution) (line : Solution) (lb : Bool) :
    List (Solution × Bool) → List Solution
  | [] => [line.WithRestOfLine rest]
  | (s2, b2) :: rem2 =>
    let tail := wrapSuffix sepL preL bm o rest ((s2, b2) :: rem2)
    let cand := ((VSumSolution [line, tail] o).getD Solution.degenerate).PlusConst
      (o.break_cost * bm +
        o.late_pack_cost * ((((s2, b2) :: rem2).length : ℚ) + 1))
    if lb then [cand]
    else cand :: candLoop sepL preL bm o rest
      (line.WithRestOfLine (some (sepL.WithRestOfLine (some s2)))) b2 rem2
termination_by l => (l.length, 1)

end

/-- The optimal layout of a block against a continuation: the pure denotation
of `DoOptLayout` from `blocks.py`/`extras.py` (memoization, which does not
change the computed solutions, is modelled separately).  The empty-composite
arms model Python code paths that the constructors make unreachable. -/
def doOptLayout (b : Block) (o : Options) (rest_of_line : Option Solution) :
    Solution :=
  match b with
  | .text t _ => textDoOpt t o rest_of_line
  | .verb lines _ first_nl => verbSolution lines first_nl o
  | .line es =>
    match es with
    | [] => rest_of_line.getD Solution.degenerate
    | e0 :: es0 =>
      let solns : List (Option Solution) :=
        (hookLines o (e0 :: es0)).1.attach.enum.map (fun p =>
          p.2.1.attach.foldr
            (fun bb acc => some (doOptLayout bb.1 o acc))
            (if p.1 = (hookLines o (e0 :: es0)).1.length - 1 then rest_of_line
             else none))
      ((VSumSolution solns.reduceOption o).getD Solution.degenerate).PlusConst
        (o.break_cost * ((solns.length : ℚ) - 1))
  | .choice es =>
    MinSolution (es.attach.map (fun x => doOptLayout x.1 o rest_of_line)) o
  | .stack es bm =>
    match es with
    | [] => rest_of_line.getD Solution.degenerate
    | e0 :: es0 =>
      let solns := (e0 :: es0).dropLast.attach.map
          (fun x => doOptLayout x.1 o none) ++
        [doOptLayout ((e0 :: es0).getLast (List.cons_ne_nil e0 es0)) o
          rest_of_line]
      match VSumSolution solns o with
      | none => rest_of_line.getD Solution.degenerate
      | some s =>
        s.PlusConst (o.break_cost * bm *
          ((max ((e0 :: es0).length - 1) 0 : Nat) : ℚ))
  | .wrap es sep bm pre =>
    let sepL := textDoOpt sep o none
    let preL := prefixLayout pre o
    wrapSuffix sepL preL bm o rest_of_line
      (es.attach.map (fun x => (doOptLayout x.1 o none, x.1.isBreaking)))
  | .joinedLine es j jb =>
    match es with
    | [] => textDoOpt "" o rest_of_line
    | [e] => doOptLayout e o rest_of_line
    | e1 :: e2 :: rest2 =>
      doOptLayout (.line (joinList j jb (e1 :: e2 :: rest2))) o rest_of_line
termination_by b.msize
decreasing_by
· obtain ⟨bbv, hbb⟩ := bb
  obtain ⟨i, lnv, hln⟩ := p
  have h2 := (hookLines o _).2 bbv (List.mem_flatten.mpr ⟨lnv, hln, hbb⟩)
  have h3 := Block.msize_le_of_mem h2
  simp only [Block.msize]
  omega
· have h3 := Block.msize_le_of_mem x.2
  simp only [Block.msize]
  omega
· have h2 : x.1 ∈ _ := (List.dropLast_sublist _).subset x.2
  have h3 := Block.msize_le_of_mem h2
  simp only [Block.msize]
  omega
· have h3 := Block.msize_le_of_mem
    (List.getLast_mem (List.cons_ne_nil b rest))
  simp only [Block.msize]
  omega
· have h3 := Block.msize_le_of_mem x.2
  simp only [Block.msize]
  omega
· simp only [Block.msize, Block.msizeList]
  omega
· rename_i jnr jb e1
  have hle := joinList_msize jnr jb (e1 :: e :: rest)
  have := Block.msize_pos jnr
  simp only [Block.msize, Block.msizeList, List.length_cons] at *
  omega

/-- Modelled from the spec: the external writer — `String(s)` appends `s`,
`NewLine(i)` emits a newline followed by `i` spaces. -/
def printElement : LayoutElement → String
  | .str s => s
  | .newline i => "\n" ++ String.mk (List.replicate i ' ')

/-- Emit a layout as a string. -/
def printLayout (l : Layout) : String :=
  String.join (l.elems.map printElement)

/-- `LayoutBlock.Render`: solve against the empty continuation and emit the
layout of the first segment. -/
def render (b : Block) (o : Options) : String :=
  printLayout ((doOptLayout b o none).layouts.headD ⟨[]⟩)

/-- A value passed to a composite block constructor: either a block or
something that is not a block. -/
inductive PyVal where
  | block (b : Block)
  | nonBlock (repr : String)

/-- Whether a constructor argument is a block. -/
def PyVal.isBlock : PyVal → Bool
  | .block _ => true
  | .nonBlock _ => false

/-- The errors a composite block constructor can raise. -/
inductive PyError where
  | blockUsageError
  | typeError
deriving DecidableEq, Repr

/-- `CompositeLayoutBlock.__init__`: raises `BlockUsageError` when the element
list is empty, then walks the elements and raises `TypeError` at the first one
that is not a `LayoutBlock`; otherwise returns the elements as blocks. -/
def compositeInit (elements : List PyVal) : Except PyError (List Block) :=
  if elements.isEmpty then .error .blockUsageError
  else
    match elements.find? (fun v => !v.isBlock) with
    | some _ => .error .typeError
    | none => .ok (elements.filterMap (fun v =>
        match v with
        | .block b => some b
        | .nonBlock _ => none))

/-- `LineBlock(elements)` construction. -/
def mkLine (elements : List PyVal) : Except PyError Block :=
  (compositeInit elements).map Block.line

/-- `ChoiceBlock(elements)` construction. -/
def mkChoice (elements : List PyVal) : Except PyError Block :=
  (compositeInit elements).map Block.choice

/-- `StackBlock(elements, break_mult)` construction. -/
def mkStack (elements : List PyVal) (bm : ℚ) : Except PyError Block :=
  (compositeInit elements).map (fun bs => Block.stack bs bm)

/-- `WrapBlock(elements, sep, break_mult, prefix)` construction. -/
def mkWrap (elements : List PyVal) (sep : String) (bm : ℚ)
    (pre : Option String) : Except PyError Block :=
  (compositeInit elements).map (fun bs => Block.wrap bs sep bm pre)

/-- `JoinedLineBlock(elements, joiner, join_breaking)` construction. -/
def mkJoinedLine (elements : List PyVal) (j : Block) (jb : Bool) :
    Except PyError Block :=
  (compositeInit elements).map (fun bs => Block.joinedLine bs j jb)

/-- The memo table of a block: continuations are keyed by identity, `None`
being a distinguished key; identities are modelled (as the spec suggests) by
integer ids, `none` standing for the `None` sentinel.  `calls` counts the
invocations of the block's `DoOptLayout`. -/
structure MemoState where
  cache : List (Option Nat × Solution)
  calls : Nat

/-- `LayoutBlock.OptLayout`: look the continuation up in the memo table; on a
miss, call `DoOptLayout` (here an arbitrary function `doOpt` of the key),
store the result, and return it. -/
def optLayoutMemo (doOpt : Option Nat → Solution) (key : Option Nat)
    (st : MemoState) : Solution × MemoState :=
  match st.cache.lookup key with
  | some s => (s, st)
  | none =>
    let s := doOpt key
    (s, ⟨(key, s) :: st.cache, st.calls + 1⟩)

/-- The `i`-th element layout of a wrap (degenerate out of range). -/
def eltSol (elts : List (Solution × Bool)) (k : Nat) : Solution :=
  (elts.getD k (Solution.degenerate, false)).1

/-- The `i`-th element's `is_breaking` flag of a wrap. -/
def eltBrk (elts : List (Solution × Bool)) (k : Nat) : Bool :=
  (elts.getD k (Solution.degenerate, false)).2

/-- Stated from the claim: the line holding elements `i..j`, prefixed with
the prefix layout when one is set, the elements separated by the separator. -/
def lineIJ (sepL : Solution) (preL : Option Solution)
    (elts : List (Solution × Bool)) (i j : Nat) : Solution :=
  (List.range' (i + 1) (j - i)).foldl
    (fun acc k =>
      acc.WithRestOfLine (some (sepL.WithRestOfLine (some (eltSol elts k)))))
    (specInitLine preL (eltSol elts i))

/-- The least index `k ≥ i` whose element is breaking (`elts.length` when no
such element exists). -/
def firstBrk (elts : List (Solution × Bool)) (i : Nat) : Nat :=
  match (List.range' i (elts.length - i)).find? (fun k => eltBrk elts k) with
  | some k => k
  | none => elts.length

/-- The number of "break after element j" candidates of `wrap[i]`: `j` runs
from `i` while `j ≤ n − 2` and no element before `j` on the line is
breaking. -/
def jsLen (elts : List (Solution × Bool)) (i : Nat) : Nat :=
  min (elts.length - 1 - i) (firstBrk elts i + 1 - i)

/-- Stated from the claim: the candidate that breaks after element `j`: the
vertical sum of the line holding `i..j` with the optimal tail, plus
`break_cost · break_mult + late_pack_cost · (n − j)`. -/
def candAt (sepL : Solution) (preL : Option Solution) (bm : ℚ) (o : Options)
    (elts : List (Solution × Bool)) (i j : Nat) (tail : Solution) : Solution :=
  ((VSumSolution [lineIJ sepL preL elts i j, tail] o).getD
      Solution.degenerate).PlusConst
    (o.break_cost * bm +
      o.late_pack_cost * ((elts.length : ℚ) - (j : ℚ)))

mutual

/-- Stated from the claim: `wrap[i]`, the pointwise minimum of the candidate
solutions covering elements `i..n−1`. -/
def claimWrap (sepL : Solution) (preL : Option Solution) (bm : ℚ)
    (o : Options) (rest : Option Solution) (elts : List (Solution × Bool))
    (i : Nat) : Solution :=
  MinSolution (claimCandsFrom sepL preL bm o rest elts i i) o
termination_by (elts.length - i, 1)

/-- Stated from the claim: the candidates of `wrap[i]` whose break position
is `≥ j` — a break-after-`k` candidate for each `k` from `j` while `k ≤ n−2`
and no element before `k` is breaking, and, when no element of `j..n−2` is
breaking, the final candidate composing the whole line `i..n−1` with the
continuation. -/
def claimCandsFrom (sepL : Solution) (preL : Option Solution) (bm : ℚ)
    (o : Options) (rest : Option Solution) (elts : List (Solution × Bool))
    (i j : Nat) : List Solution :=
  ((List.range' j (jsLen elts j)).attach.map (fun k =>
    candAt sepL preL bm o elts i k.1
      (claimWrap sepL preL bm o rest elts (k.1 + 1)))) ++
  (if elts.length - 1 ≤ firstBrk elts j then
    [(lineIJ sepL preL elts i (elts.length - 1)).WithRestOfLine rest]
   else [])
termination_by (elts.length - j, 0)
decreasing_by
  have hk := k.2
  rw [List.mem_range'] at hk
  obtain ⟨t, ht, hkt⟩ := hk
  have h1 : jsLen elts j ≤ elts.length - 1 - j := min_le_left _ _
  apply Prod.Lex.left
  omega

end

/-- Stated from the claim: the per-line fold of `LineBlock.DoOptLayout` — the
children of an element-line folded right-to-left, each child's layout
composed with the accumulator. -/
def specFoldLine (o : Options) (init : Option Solution) :
    List Block → Option Solution
  | [] => init
  | b :: rest => some (doOptLayout b o (specFoldLine o init rest))

/-- Stated from the claim: `LineBlock.DoOptLayout` as C4 describes it —
split into element-lines after each non-final breaking child, fold each line
(the last against the continuation, the others against `None`), vertically
sum, and add `break_cost · (number of element-lines − 1)`. -/
def specLineSol (o : Options) (rest : Option Solution) (es : List Block) :
    Solution :=
  let lns := (splitLines es).1
  let solns : List Solution := lns.enum.map (fun p =>
    (specFoldLine o (if p.1 = lns.length - 1 then rest else none) p.2).getD
      Solution.degenerate)
  ((VSumSolution solns o).getD Solution.degenerate).PlusConst
    (o.break_cost * ((lns.length : ℚ) - 1))

/-- Stated from the claim: the joined element list of a `JoinedLineBlock` —
the joiner is inserted after every non-last element that is not breaking
(after breaking ones too when `join_breaking` is set), the elements
themselves being kept unconditionally. -/
def interleaveJoiner (j : Block) (jb : Bool) (es : List Block) : List Block :=
  es.dropLast.flatMap (fun e => e :: (if !e.isBreaking || jb then [j] else [])) ++
    es.getLast?.toList

/-- Well-formedness of a solution as produced by the layout operators: a
nonempty, ascending knot list, parallel sequences of equal length, and a
first segment that starts at the first knot (so that the layout at the first
knot is the first stored layout). -/
def Solution.Wf (s : Solution) : Prop :=
  s.knots ≠ [] ∧
  s.spans.length = s.knots.length ∧
  s.costs.length = s.knots.length ∧
  s.slopes.length = s.knots.length ∧
  s.layouts.length = s.knots.length ∧
  s.knots.Sorted (· ≤ ·) ∧
  s.layoutAt (s.knots.headD 0) = s.layouts.headD ⟨[]⟩

/-! ## Helper lemmas -/

/-- Folding over an attached list is folding over the list. -/
theorem foldr_attach_eq {α β : Type} (l : List α) (g : α → β → β) (init : β) :
    l.attach.foldr (fun bb acc => g bb.1 acc) init = l.foldr g init := by
  have h : l.attach.map (fun (i : {x // x ∈ l}) => (i.1 : α)) = l := by
    simp
  calc l.attach.foldr (fun bb acc => g bb.1 acc) init
      = (l.attach.map (fun i => i.1)).foldr g init := by
        rw [List.foldr_map]
    _ = l.foldr g init := by rw [h]

/-- Mapping an index-and-value function over an attached enumeration is
mapping it over the plain enumeration. -/
theorem enum_attach_map {α β : Type} (l : List α) (F : ℕ → α → β) :
    l.attach.enum.map (fun p => F p.1 p.2.1) = l.enum.map (fun p => F p.1 p.2) := by
  have h : l.attach.map (fun (i : {x // x ∈ l}) => (i.1 : α)) = l := by
    simp
  conv_rhs => rw [← h, List.enum_map, List.map_map]
  rfl

/-! ## Unfolding lemmas for `doOptLayout` -/

/-- `TextBlock` case. -/
theorem doOpt_text (t : String) (br : Bool) (o : Options) (r : Option Solution) :
    doOptLayout (.text t br) o r = textDoOpt t o r := by
  simp [doOptLayout]

/-- `VerbBlock` case. -/
theorem doOpt_verb (lines : List String) (br fnl : Bool) (o : Options)
    (r : Option Solution) :
    doOptLayout (.verb lines br fnl) o r = verbSolution lines fnl o := by
  simp [doOptLayout]

/-- `ChoiceBlock` case. -/
theorem doOpt_choice (es : List Block) (o : Options) (r : Option Solution) :
    doOptLayout (.choice es) o r =
      MinSolution (es.map (fun e => doOptLayout e o r)) o := by
  simp [doOptLayout, List.attach_map_val]

/-- `WrapBlock` case. -/
theorem doOpt_wrap (es : List Block) (sep : String) (bm : ℚ)
    (pre : Option String) (o : Options) (r : Option Solution) :
    doOptLayout (.wrap es sep bm pre) o r =
      wrapSuffix (textDoOpt sep o none) (prefixLayout pre o)
        bm o r (es.map (fun e => (doOptLayout e o none, e.isBreaking))) := by
  simp [doOptLayout, List.attach_map_val]

/-- `LineBlock` case (nonempty children). -/
theorem doOpt_line_cons (e0 : Block) (es0 : List Block) (o : Options)
    (r : Option Solution) :
    doOptLayout (.line (e0 :: es0)) o r =
      ((VSumSolution
          (((hookLines o (e0 :: es0)).1.enum.map (fun p =>
            p.2.foldr (fun b acc => some (doOptLayout b o acc))
              (if p.1 = (hookLines o (e0 :: es0)).1.length - 1 then r
               else none))).reduceOption) o).getD Solution.degenerate).PlusConst
        (o.break_cost * (((hookLines o (e0 :: es0)).1.length : ℚ) - 1)) := by
  simp only [doOptLayout]
  rw [show (fun (p : ℕ × {x // x ∈ (hookLines o (e0 :: es0)).1}) =>
      p.2.1.attach.foldr (fun bb acc => some (doOptLayout bb.1 o acc))
        (if p.1 = (hookLines o (e0 :: es0)).1.length - 1 then r else none)) =
      (fun (p : ℕ × {x // x ∈ (hookLines o (e0 :: es0)).1}) =>
      p.2.1.foldr (fun b acc => some (doOptLayout b o acc))
        (if p.1 = (hookLines o (e0 :: es0)).1.length - 1 then r else none))
    from funext (fun p => foldr_attach_eq p.2.1
      (fun b acc => some (doOptLayout b o acc))
      (if p.1 = (hookLines o (e0 :: es0)).1.length - 1 then r else none))]
  rw [enum_attach_map ((hookLines o (e0 :: es0)).1)
    (fun i ln => ln.foldr (fun b acc => some (doOptLayout b o acc))
      (if i = (hookLines o (e0 :: es0)).1.length - 1 then r else none))]
  simp [List.enum_length]

/-- `StackBlock` case (nonempty children). -/
theorem doOpt_stack_cons (e0 : Block) (es0 : List Block) (bm : ℚ) (o : Options)
    (r : Option Solution) :
    doOptLayout (.stack (e0 :: es0) bm) o r =
      (match VSumSolution ((e0 :: es0).dropLast.map (fun e => doOptLayout e o none) ++
          [doOptLayout ((e0 :: es0).getLast (List.cons_ne_nil e0 es0)) o r]) o with
       | none => r.getD Solution.degenerate
       | some s =>
         s.PlusConst (o.break_cost * bm *
           ((max ((e0 :: es0).length - 1) 0 : Nat) : ℚ))) := by
  simp [doOptLayout, List.attach_map_val]

/-- `JoinedLineBlock` case with at least two children. -/
theorem doOpt_joined_cons (e1 e2 : Block) (rest2 : List Block) (j : Block)
    (jb : Bool) (o : Options) (r : Option Solution) :
    doOptLayout (.joinedLine (e1 :: e2 :: rest2) j jb) o r =
      doOptLayout (.line (joinList j jb (e1 :: e2 :: rest2))) o r := by
  conv_lhs => rw [doOptLayout]

/-- `JoinedLineBlock` case with a single child. -/
theorem doOpt_joined_single (e j : Block) (jb : Bool) (o : Options)
    (r : Option Solution) :
    doOptLayout (.joinedLine [e] j jb) o r = doOptLayout e o r := by
  conv_lhs => rw [doOptLayout]

/-! ## Claim C9: `VerbBlock` ignores its continuation -/

/-- C9: for every `VerbBlock` and options, `DoOptLayout` returns the same
solution (knots, spans, costs, slopes and verbatim layout alike) for every
continuation as for `None`: the continuation is never composed into a
`VerbBlock`'s solution. -/
theorem verb_ignores_continuation (lines : List String) (br fnl : Bool)
    (o : Options) (r : Option Solution) :
    doOptLayout (.verb lines br fnl) o r = doOptLayout (.verb lines br fnl) o none := by
  rw [doOpt_verb, doOpt_verb]

/-! ## Claim C7: `Options.Check` validates exactly the §3.1 invariants -/

/-- C7: constructing an `Options` value raises exactly when one of the
invariants is violated (`margin_0 < 0`, `margin_1 < margin_0`,
`margin_0_cost < 0`, `margin_1_cost < 0`, `break_cost < 0`,
`late_pack_cost < 0`); a construction satisfying all invariants does not
raise. -/
theorem options_check_iff (o : Options) :
    ((∃ e, o.Check = .error e) ↔
      (o.margin_0 < 0 ∨ o.margin_1 < o.margin_0 ∨ o.margin_0_cost < 0 ∨
        o.margin_1_cost < 0 ∨ o.break_cost < 0 ∨ o.late_pack_cost < 0)) ∧
    (o.Valid → o.Check = .ok ()) := by
  constructor
  · unfold Options.Check
    split_ifs with h1 h2 h3 h4 h5 h6 <;> simp_all
  · intro hv
    obtain ⟨v1, v2, v3, v4, v5, v6⟩ := hv
    unfold Options.Check
    rw [if_neg (not_not_intro v1), if_neg (not_not_intro v2),
      if_neg (not_not_intro v3), if_neg (not_not_intro v4),
      if_neg (not_not_intro v5), if_neg (not_not_intro v6)]

/-! ## Claim C6: memoization of `OptLayout` -/

/-- C6: a second `OptLayout` call with the same continuation key returns the
same (hence structurally equal) solution, leaves the memo state unchanged,
and does not invoke `DoOptLayout` again (the invocation counter does not
move). -/
theorem optLayout_memoized (doOpt : Option Nat → Solution) (key : Option Nat)
    (st : MemoState) :
    optLayoutMemo doOpt key (optLayoutMemo doOpt key st).2 =
      optLayoutMemo doOpt key st ∧
    (optLayoutMemo doOpt key (optLayoutMemo doOpt key st).2).2.calls =
      (optLayoutMemo doOpt key st).2.calls := by
  unfold optLayoutMemo
  cases h : st.cache.lookup key with
  | some s => simp [h]
  | none => simp [h, List.lookup]

/-! ## Claim C2: construction-time errors of composite blocks -/

/-- The error behavior of `CompositeLayoutBlock.__init__`: `BlockUsageError`
exactly for an empty element list, `TypeError` exactly for a nonempty list
containing a non-block. -/
theorem compositeInit_errors (pvs : List PyVal) :
    (compositeInit pvs = .error .blockUsageError ↔ pvs = []) ∧
    (compositeInit pvs = .error .typeError ↔
      (pvs ≠ [] ∧ ∃ v ∈ pvs, v.isBlock = false)) := by
  unfold compositeInit
  by_cases he : pvs.isEmpty
  · rw [if_pos he]
    rw [List.isEmpty_iff] at he
    subst he
    simp
  · rw [if_neg he]
    rw [List.isEmpty_iff] at he
    cases hf : pvs.find? (fun v => !v.isBlock) with
    | some v =>
      have hv := List.find?_some hf
      have hm := List.mem_of_find?_eq_some hf
      simp only [Bool.not_eq_true'] at hv
      constructor
      · constructor
        · intro h; cases h
        · intro h; exact absurd h he
      · constructor
        · intro _; exact ⟨he, v, hm, hv⟩
        · intro _; rfl
    | none =>
      have hall := List.find?_eq_none.mp hf
      constructor
      · constructor
        · intro h; cases h
        · intro h; exact absurd h he
      · constructor
        · intro h; cases h
        · rintro ⟨-, v, hm, hv⟩
          have := hall v hm
          simp [hv] at this

/-- C2 counterexample: constructing a composite block (here a `LineBlock`)
with a child that is not a block raises `TypeError`, not `BlockUsageError` as
the claim states. -/
theorem composite_nonblock_raises_typeerror :
    mkLine [PyVal.nonBlock "x"] = Except.error PyError.typeError ∧
    (Except.error PyError.typeError : Except PyError Block) ≠
      Except.error PyError.blockUsageError := by
  constructor
  · rfl
  · intro h
    cases h

/-- Lifting `compositeInit`'s error behavior through `Except.map`. -/
theorem exceptMap_error_iff {α β : Type} (f : α → β) (e : Except PyError α)
    (x : PyError) : e.map f = .error x ↔ e = .error x := by
  cases e <;> simp [Except.map]

/-- C2 (amended): for each composite block kind (`Line`, `Stack`, `Choice`,
`Wrap`, `JoinedLine`), construction with zero elements raises
`BlockUsageError` and construction with a nonempty list containing a
non-block child raises `TypeError` (not `BlockUsageError`); both are raised
at construction time, before any layout is computed. -/
theorem composite_construction_errors (pvs : List PyVal) (bm : ℚ)
    (sep : String) (pre : Option String) (j : Block) (jb : Bool) :
    ((mkLine pvs = .error .blockUsageError ↔ pvs = []) ∧
      (mkLine pvs = .error .typeError ↔
        (pvs ≠ [] ∧ ∃ v ∈ pvs, v.isBlock = false))) ∧
    ((mkChoice pvs = .error .blockUsageError ↔ pvs = []) ∧
      (mkChoice pvs = .error .typeError ↔
        (pvs ≠ [] ∧ ∃ v ∈ pvs, v.isBlock = false))) ∧
    ((mkStack pvs bm = .error .blockUsageError ↔ pvs = []) ∧
      (mkStack pvs bm = .error .typeError ↔
        (pvs ≠ [] ∧ ∃ v ∈ pvs, v.isBlock = false))) ∧
    ((mkWrap pvs sep bm pre = .error .blockUsageError ↔ pvs = []) ∧
      (mkWrap pvs sep bm pre = .error .typeError ↔
        (pvs ≠ [] ∧ ∃ v ∈ pvs, v.isBlock = false))) ∧
    ((mkJoinedLine pvs j jb = .error .blockUsageError ↔ pvs = []) ∧
      (mkJoinedLine pvs j jb = .error .typeError ↔
        (pvs ≠ [] ∧ ∃ v ∈ pvs, v.isBlock = false))) := by
  have h := compositeInit_errors pvs
  refine ⟨⟨?_, ?_⟩, ⟨?_, ?_⟩, ⟨?_, ?_⟩, ⟨?_, ?_⟩, ⟨?_, ?_⟩⟩ <;>
    simp only [mkLine, mkChoice, mkStack, mkWrap, mkJoinedLine,
      exceptMap_error_iff] <;>
    first
      | exact h.1
      | exact h.2

/-! ## Claim C10: `JoinedLineBlock` joiner placement -/

/-- The joined list built by `JoinedLineBlock.CompositeOptLayout` equals the
claim's interleaving: every non-last element, kept unconditionally (empty
text blocks included), followed by the joiner when the element is not
breaking or `join_breaking` is set, with the last element appended. -/
theorem joinList_eq_interleave (j : Block) (jb : Bool) :
    ∀ es : List Block, joinList j jb es = interleaveJoiner j jb es := by
  intro es
  induction es with
  | nil => rfl
  | cons e rest ih =>
    cases rest with
    | nil => rfl
    | cons e2 rest2 =>
      simp only [joinList, interleaveJoiner] at *
      rw [ih]
      simp [List.flatMap_cons]

/-- C10: for a `JoinedLineBlock` with at least two elements, the layout is
that of the `LineBlock` on the claim's interleaving — the joiner placed after
every non-last element whose `is_breaking` is false (and after breaking ones
too when `join_breaking` is set), regardless of the element's content;
in particular empty `TextBlock` children are not filtered out. -/
theorem joinedLine_keeps_empty_text (es : List Block) (j : Block) (jb : Bool)
    (o : Options) (r : Option Solution) (h : 2 ≤ es.length) :
    doOptLayout (.joinedLine es j jb) o r =
      doOptLayout (.line (interleaveJoiner j jb es)) o r := by
  match es, h with
  | e1 :: e2 :: rest2, _ =>
    rw [doOpt_joined_cons, joinList_eq_interleave]

/-- C10 witness: a concrete joined line containing an empty `TextBlock`; the
joiner is still placed on both sides of it. -/
theorem joinedLine_keeps_empty_text_witness :
    2 ≤ ([Block.text "a" false, Block.text "" false, Block.text "b" false] : List Block).length ∧
    doOptLayout (.joinedLine [Block.text "a" false, Block.text "" false, Block.text "b" false]
        (.text "-" false) false) { } none =
      doOptLayout (.line (interleaveJoiner (.text "-" false) false
        [Block.text "a" false, Block.text "" false, Block.text "b" false])) { } none :=
  ⟨by simp, joinedLine_keeps_empty_text
    [Block.text "a" false, Block.text "" false, Block.text "b" false]
    (.text "-" false) false { } none (by simp)⟩

/-! ## Claim C5: `StackBlock` layout -/

/-- A vertical sum of a nonempty list is never `None`. -/
theorem vsum_ne_none (l : List Solution) (o : Options) (h : l ≠ []) :
    VSumSolution l o ≠ none := by
  match l, h with
  | s0 :: rest, _ => simp [VSumSolution]

/-- C5: a `StackBlock` with `n ≥ 1` children returns the vertical sum of the
children's solutions — every child but the last solved against `None`, the
last against the supplied continuation — plus the constant
`break_cost · break_mult · max(0, n − 1)`. -/
theorem stack_layout_formula (es : List Block) (bm : ℚ) (o : Options)
    (r : Option Solution) (h : es ≠ []) :
    doOptLayout (.stack es bm) o r =
      ((VSumSolution (es.dropLast.map (fun e => doOptLayout e o none) ++
          [doOptLayout (es.getLast h) o r]) o).getD Solution.degenerate).PlusConst
        (o.break_cost * bm * ((max (es.length - 1) 0 : Nat) : ℚ)) := by
  match es, h with
  | e0 :: es0, _ =>
    rw [doOpt_stack_cons]
    cases hv : VSumSolution ((e0 :: es0).dropLast.map (fun e => doOptLayout e o none) ++
        [doOptLayout ((e0 :: es0).getLast (List.cons_ne_nil e0 es0)) o r]) o with
    | none =>
      exact absurd hv (vsum_ne_none _ o (by simp))
    | some s => simp

/-- C5 witness: the formula at a concrete two-element stack. -/
theorem stack_layout_formula_witness :
    ([Block.text "hello" false, Block.text "world" false] : List Block) ≠ [] ∧
    doOptLayout (.stack [Block.text "hello" false, Block.text "world" false] 1) { } none =
      ((VSumSolution
          (([Block.text "hello" false, Block.text "world" false] : List Block).dropLast.map
            (fun e => doOptLayout e { } none) ++
          [doOptLayout (([Block.text "hello" false, Block.text "world" false] : List Block).getLast
            (by simp)) { } none]) { }).getD Solution.degenerate).PlusConst
        ((Options.break_cost { }) * 1 *
          ((max (([Block.text "hello" false, Block.text "world" false] : List Block).length - 1) 0 : Nat) : ℚ)) :=
  ⟨by simp, stack_layout_formula
    [Block.text "hello" false, Block.text "world" false] 1 { } none (by simp)⟩

/-! ## Claim C1: the one-knot branch of `TextBlock.DoOptLayout` -/

/-- C1 (code evaluation at the failing input): for options
`margin_0 = 0, margin_0_cost = 0, margin_1 = 2, margin_1_cost = 100` and the
text `"abcd"` (length 4 ≥ margin_1), the code produces the single knot at 0
with cost `(4 − 0)·0 + (4 − 2)·margin_1 = 4` — multiplying the hard-margin
overflow by the margin *value* `margin_1`, not by `margin_1_cost` — whereas
the claimed cost `(4 − 0)·0 + (4 − 2)·margin_1_cost` is `200`.  The slope and
knot agree with the claim. -/
theorem text_margin1_cost_slip :
    doOptLayout (.text "abcd" false)
        { margin_0 := 0, margin_0_cost := 0, margin_1 := 2, margin_1_cost := 100,
          break_cost := 2, late_pack_cost := 1/1000, break_element_lines := none }
        none =
      { knots := [0], spans := [4], costs := [4], slopes := [100],
        layouts := [⟨[LayoutElement.str "abcd"]⟩] } ∧
    (4 : ℚ) ≠ ((4 : ℚ) - 0) * 0 + ((4 : ℚ) - 2) * 100 := by
  constructor
  · rw [doOpt_text]
    have h4 : "abcd".length = 4 := rfl
    norm_num [textDoOpt, textSolution, Solution.WithRestOfLine, h4]
  · norm_num

/-! ## Claim C4: `LineBlock` layout -/

/-- `specFoldLine` is the right fold of `OptLayout` composition. -/
theorem specFoldLine_foldr (o : Options) (init : Option Solution) :
    ∀ ln : List Block, specFoldLine o init ln =
      ln.foldr (fun b acc => some (doOptLayout b o acc)) init := by
  intro ln
  induction ln with
  | nil => rfl
  | cons b rest ih => simp [specFoldLine, ih]

/-- With no re-partitioning hook set, the element-lines used by
`LineBlock.DoOptLayout` are exactly the split lines. -/
theorem hookLines_none (o : Options) (es : List Block)
    (hh : o.break_element_lines = none) :
    (hookLines o es).1 = (splitLines es).1 := by
  simp only [hookLines, hh]
  split <;> rfl

/-- `reduceOption` of a map whose entries are all `some`. -/
theorem reduceOption_map_eq {α β : Type} (l : List α) (f : α → Option β)
    (g : α → β) (h : ∀ x ∈ l, f x = some (g x)) :
    (l.map f).reduceOption = l.map g := by
  induction l with
  | nil => rfl
  | cons a rest ih =>
    simp only [List.map_cons, h a (List.mem_cons_self a rest),
      List.reduceOption_cons_of_some]
    rw [ih (fun x hx => h x (List.mem_cons_of_mem a hx))]

/-- C4 (amended): when `break_element_lines` is not set, `LineBlock`'s layout
is the claim's formula — split the children into element-lines after each
non-final breaking child, fold each line right-to-left (the last line against
the supplied continuation, the others against `None`), vertically sum the
per-line solutions and add `break_cost · (number of element-lines − 1)`. -/
theorem line_layout_formula (es : List Block) (o : Options)
    (r : Option Solution) (h : es ≠ [])
    (hh : o.break_element_lines = none) :
    doOptLayout (.line es) o r = specLineSol o r es := by
  match es, h with
  | e0 :: es0, _ =>
    rw [doOpt_line_cons, specLineSol]
    rw [hookLines_none o (e0 :: es0) hh]
    have hred : ((splitLines (e0 :: es0)).1.enum.map (fun p =>
        p.2.foldr (fun b acc => some (doOptLayout b o acc))
          (if p.1 = (splitLines (e0 :: es0)).1.length - 1 then r
           else none))).reduceOption =
        (splitLines (e0 :: es0)).1.enum.map (fun p =>
          (specFoldLine o
            (if p.1 = (splitLines (e0 :: es0)).1.length - 1 then r else none)
            p.2).getD Solution.degenerate) := by
      apply reduceOption_map_eq
      intro p hp
      have hmem : p.2 ∈ (splitLines (e0 :: es0)).1 := by
        rcases p with ⟨i, x⟩
        obtain ⟨h1, h2, h3⟩ := List.mem_enumFrom hp
        rw [h3]
        exact List.getElem_mem _
      have hne : p.2 ≠ [] :=
        (splitLines (e0 :: es0)).2.2 p.2 hmem (List.cons_ne_nil e0 es0)
      match hpe : p.2, hne with
      | b :: tl, _ =>
        rw [specFoldLine_foldr]
        simp
    rw [hred]

unseal Rat.add Rat.sub Rat.mul Rat.inv in
/-- C4 counterexample: with the `break_element_lines` hook set (here one that
merges all element-lines), `LineBlock.DoOptLayout` does not return the
claim's formula: the hook repartitions `[["a*"], ["b"]]` into one line, so
the code lays out `ab` on one line with no break cost while the claim's
formula breaks after the breaking child. -/
theorem line_hook_changes_layout :
    doOptLayout (.line [Block.text "a" true, Block.text "b" false])
        { break_element_lines := some mergeAllHook } none ≠
      specLineSol { break_element_lines := some mergeAllHook } none
        [Block.text "a" true, Block.text "b" false] := by
  rw [doOpt_line_cons]
  simp [specLineSol, specFoldLine, hookLines, splitLines, mergeAllHook,
    Block.isBreaking, Block.lastBreaking, doOpt_text, List.enum, List.enumFrom]
  decide

/-- C4 witness: the amended formula at a concrete line with a breaking
child and no hook. -/
theorem line_layout_formula_witness :
    ([Block.text "aa" true, Block.text "bb" false] : List Block) ≠ [] ∧
    (Options.break_element_lines { }) = none ∧
    doOptLayout (.line [Block.text "aa" true, Block.text "bb" false]) { } none =
      specLineSol { } none [Block.text "aa" true, Block.text "bb" false] :=
  ⟨by simp, rfl, line_layout_formula
    [Block.text "aa" true, Block.text "bb" false] { } none (by simp) rfl⟩

/-! ## Claim C3: the `WrapBlock` dynamic program -/

/-- `firstBrk` never returns an index below its argument. -/
theorem firstBrk_ge (elts : List (Solution × Bool)) (i : Nat)
    (hi : i ≤ elts.length) : i ≤ firstBrk elts i := by
  unfold firstBrk
  cases hf : (List.range' i (elts.length - i)).find? (fun k => eltBrk elts k) with
  | none => exact hi
  | some k =>
    have hm := List.mem_of_find?_eq_some hf
    rw [List.mem_range'] at hm
    obtain ⟨t, _, rfl⟩ := hm
    show i ≤ i + 1 * t
    omega

/-- A breaking element is its own first break. -/
theorem firstBrk_brk (elts : List (Solution × Bool)) (i : Nat)
    (hi : i < elts.length) (hb : eltBrk elts i = true) :
    firstBrk elts i = i := by
  unfold firstBrk
  rw [show elts.length - i = (elts.length - (i + 1)) + 1 from by omega,
    List.range'_succ, List.find?_cons]
  simp [hb]

/-- Skipping a non-breaking element moves the first break one step. -/
theorem firstBrk_step (elts : List (Solution × Bool)) (i : Nat)
    (hi : i < elts.length) (hb : eltBrk elts i = false) :
    firstBrk elts i = firstBrk elts (i + 1) := by
  unfold firstBrk
  rw [show elts.length - i = (elts.length - (i + 1)) + 1 from by omega,
    List.range'_succ, List.find?_cons]
  simp [hb]

/-- No loop candidates at the last element. -/
theorem jsLen_last (elts : List (Solution × Bool)) (i : Nat)
    (hi : elts.length - 1 ≤ i) : jsLen elts i = 0 := by
  unfold jsLen
  omega

/-- A breaking element contributes exactly one loop candidate. -/
theorem jsLen_brk (elts : List (Solution × Bool)) (i : Nat)
    (hij : i < elts.length - 1) (hb : eltBrk elts i = true) :
    jsLen elts i = 1 := by
  unfold jsLen
  rw [firstBrk_brk elts i (by omega) hb]
  omega

/-- A non-breaking element contributes one candidate plus the rest. -/
theorem jsLen_step (elts : List (Solution × Bool)) (i : Nat)
    (hij : i < elts.length - 1) (hb : eltBrk elts i = false) :
    jsLen elts i = jsLen elts (i + 1) + 1 := by
  unfold jsLen
  rw [firstBrk_step elts i (by omega) hb]
  have hge : i + 1 ≤ firstBrk elts (i + 1) :=
    firstBrk_ge elts (i + 1) (by omega)
  omega

/-- Extending a line by the separator and the next element. -/
theorem lineIJ_extend (sepL : Solution) (preL : Option Solution)
    (elts : List (Solution × Bool)) (i j : Nat) (hij : i ≤ j) :
    lineIJ sepL preL elts i (j + 1) =
      (lineIJ sepL preL elts i j).WithRestOfLine
        (some (sepL.WithRestOfLine (some (eltSol elts (j + 1))))) := by
  unfold lineIJ
  rw [show j + 1 - i = (j - i) + 1 from by omega, List.range'_concat,
    show i + 1 + 1 * (j - i) = j + 1 from by omega, List.foldl_append]
  simp only [List.foldl_cons, List.foldl_nil]

/-- `claimCandsFrom` without the termination bookkeeping. -/
theorem claimCandsFrom_eq (sepL : Solution) (preL : Option Solution) (bm : ℚ)
    (o : Options) (rest : Option Solution) (elts : List (Solution × Bool))
    (i j : Nat) :
    claimCandsFrom sepL preL bm o rest elts i j =
      ((List.range' j (jsLen elts j)).map (fun k =>
        candAt sepL preL bm o elts i k
          (claimWrap sepL preL bm o rest elts (k + 1)))) ++
      (if elts.length - 1 ≤ firstBrk elts j then
        [(lineIJ sepL preL elts i (elts.length - 1)).WithRestOfLine rest]
       else []) := by
  rw [claimCandsFrom]
  rw [List.attach_map_val (List.range' j (jsLen elts j)) (fun k =>
    candAt sepL preL bm o elts i k (claimWrap sepL preL bm o rest elts (k + 1)))]

/-- The candidate loop at the last element: the elements are exhausted, so
the only candidate composes the line with the continuation. -/
theorem candLoop_last (sepL : Solution) (preL : Option Solution) (bm : ℚ)
    (o : Options) (rest : Option Solution) (elts : List (Solution × Bool))
    (i : Nat) :
    candLoop sepL preL bm o rest (lineIJ sepL preL elts i (elts.length - 1))
        (eltBrk elts (elts.length - 1)) (elts.drop elts.length) =
      claimCandsFrom sepL preL bm o rest elts i (elts.length - 1) := by
  rw [List.drop_length]
  rw [claimCandsFrom_eq, jsLen_last elts _ (le_refl _)]
  rw [if_pos (firstBrk_ge elts (elts.length - 1) (by omega))]
  simp [candLoop, List.range']

/-- The candidate loop of the source, started at element `j` of a line that
began at element `i`, produces exactly the claim's candidates with break
position `≥ j` — provided the optimal tails beyond `i` are already known to
agree with the claim's `wrap` table. -/
theorem candLoop_eq (sepL : Solution) (preL : Option Solution) (bm : ℚ)
    (o : Options) (rest : Option Solution) (elts : List (Solution × Bool))
    (i : Nat)
    (HW : ∀ t, i < t → t < elts.length →
      wrapSuffix sepL preL bm o rest (elts.drop t) =
        claimWrap sepL preL bm o rest elts t) :
    ∀ d j, i ≤ j → j < elts.length → elts.length - 1 - j ≤ d →
      (∀ t, i ≤ t → t < j → eltBrk elts t = false) →
      candLoop sepL preL bm o rest (lineIJ sepL preL elts i j)
          (eltBrk elts j) (elts.drop (j + 1)) =
        claimCandsFrom sepL preL bm o rest elts i j := by
  intro d
  induction d with
  | zero =>
    intro j hij hj hd _
    have hj1 : j = elts.length - 1 := by omega
    subst hj1
    rw [show elts.length - 1 + 1 = elts.length from by omega]
    exact candLoop_last sepL preL bm o rest elts i
  | succ d ihd =>
    intro j hij hj hd hnb
    by_cases hlast : elts.length - 1 ≤ j
    · have hj1 : j = elts.length - 1 := by omega
      subst hj1
      rw [show elts.length - 1 + 1 = elts.length from by omega]
      exact candLoop_last sepL preL bm o rest elts i
    · have hj2 : j + 1 < elts.length := by omega
      have hdrop : elts.drop (j + 1) = elts[j + 1] :: elts.drop (j + 2) :=
        (List.getElem_cons_drop elts (j + 1) hj2).symm
      rw [hdrop]
      rcases hsb : elts[j + 1] with ⟨s2, b2⟩
      rw [candLoop]
      have htail : wrapSuffix sepL preL bm o rest ((s2, b2) :: elts.drop (j + 2)) =
          claimWrap sepL preL bm o rest elts (j + 1) := by
        rw [← hsb, ← hdrop]
        exact HW (j + 1) (by omega) hj2
      have hpen : ((((s2, b2) :: elts.drop (j + 2)).length : ℚ) + 1) =
          (elts.length : ℚ) - (j : ℚ) := by
        have h1 : ((s2, b2) :: elts.drop (j + 2)).length =
            elts.length - (j + 1) := by
          simp [List.length_drop]
          omega
        rw [h1, Nat.cast_sub (by omega : j + 1 ≤ elts.length)]
        push_cast
        ring
      rw [htail, hpen]
      have hsol : eltSol elts (j + 1) = s2 := by
        unfold eltSol
        rw [List.getD_eq_getElem elts _ hj2, hsb]
      have hbrk : eltBrk elts (j + 1) = b2 := by
        unfold eltBrk
        rw [List.getD_eq_getElem elts _ hj2, hsb]
      cases hb : eltBrk elts j with
      | true =>
        rw [if_pos rfl]
        rw [claimCandsFrom_eq, jsLen_brk elts j (by omega) hb]
        rw [if_neg (by rw [firstBrk_brk elts j (by omega) hb]; omega)]
        simp [List.range', candAt]
      | false =>
        rw [if_neg (by simp)]
        have hline : (lineIJ sepL preL elts i j).WithRestOfLine
            (some (sepL.WithRestOfLine (some s2))) =
            lineIJ sepL preL elts i (j + 1) := by
          rw [lineIJ_extend sepL preL elts i j hij, hsol]
        rw [hline]
        have hrec := ihd (j + 1) (by omega) hj2 (by omega)
          (fun t hit htj => by
            rcases Nat.lt_or_ge t j with h | h
            · exact hnb t hit h
            · have : t = j := by omega
              subst this
              exact hb)
        rw [hbrk] at hrec
        rw [hrec]
        rw [claimCandsFrom_eq sepL preL bm o rest elts i j,
          claimCandsFrom_eq sepL preL bm o rest elts i (j + 1)]
        rw [jsLen_step elts j (by omega) hb, List.range'_succ, List.map_cons]
        rw [firstBrk_step elts j (by omega) hb]
        simp [candAt]

/-- The source's right-to-left wrap table agrees with the claim's `wrap`
table: the optimal layout of elements `i..n−1` is the pointwise minimum of
the claim's candidates for `i`. -/
theorem wrapSuffix_eq_claim (sepL : Solution) (preL : Option Solution)
    (bm : ℚ) (o : Options) (rest : Option Solution)
    (elts : List (Solution × Bool)) :
    ∀ i, i < elts.length →
      wrapSuffix sepL preL bm o rest (elts.drop i) =
        claimWrap sepL preL bm o rest elts i := by
  suffices H : ∀ m i, i < elts.length → elts.length - i ≤ m →
      wrapSuffix sepL preL bm o rest (elts.drop i) =
        claimWrap sepL preL bm o rest elts i from
    fun i hi => H elts.length i hi (by omega)
  intro m
  induction m with
  | zero => intro i hi hm; omega
  | succ m ihm =>
    intro i hi hm
    have HW : ∀ t, i < t → t < elts.length →
        wrapSuffix sepL preL bm o rest (elts.drop t) =
          claimWrap sepL preL bm o rest elts t :=
      fun t hit htn => ihm t htn (by omega)
    have hdrop : elts.drop i = elts[i] :: elts.drop (i + 1) :=
      (List.getElem_cons_drop elts i hi).symm
    rw [hdrop]
    rcases hsb : elts[i] with ⟨s, brk⟩
    rw [wrapSuffix.eq_def]
    have hsol : eltSol elts i = s := by
      unfold eltSol
      rw [List.getD_eq_getElem elts _ hi, hsb]
    have hbrk : eltBrk elts i = brk := by
      unfold eltBrk
      rw [List.getD_eq_getElem elts _ hi, hsb]
    have hinit : lineIJ sepL preL elts i i = specInitLine preL s := by
      unfold lineIJ
      rw [show i - i = 0 from by omega]
      simp only [List.range', List.foldl_nil]
      rw [hsol]
    have hcl := candLoop_eq sepL preL bm o rest elts i HW
      (elts.length - 1 - i) i (le_refl i) hi (le_refl _)
      (fun t hit htj => by omega)
    rw [hinit, hbrk] at hcl
    show MinSolution (candLoop sepL preL bm o rest (specInitLine preL s) brk
      (elts.drop (i + 1))) o = claimWrap sepL preL bm o rest elts i
    rw [hcl, claimWrap]

/-- C3: `WrapBlock.DoOptLayout` computes exactly the claim's dynamic
program: `wrap[i]` (the solution covering elements `i..n−1`) is the
pointwise minimum of the break-after-`j` candidates — `j` running from `i`
while no element already placed on the line mandates a break, each candidate
the vertical sum of the prefixed line `i..j` with `wrap[j+1]` plus
`break_cost·break_mult + late_pack_cost·(n−j)` — together with, when no
element of `i..n−2` is breaking, the final candidate composing the whole
line with the continuation; the block's answer is `wrap[0]`. -/
theorem wrap_dp_matches_claim (es : List Block) (sep : String) (bm : ℚ)
    (pre : Option String) (o : Options) (rest : Option Solution)
    (h : es ≠ []) :
    doOptLayout (.wrap es sep bm pre) o rest =
      claimWrap (textDoOpt sep o none) (prefixLayout pre o)
        bm o rest (es.map (fun e => (doOptLayout e o none, e.isBreaking))) 0 ∧
    (∀ i, i < (es.map (fun e => (doOptLayout e o none, e.isBreaking))).length →
      wrapSuffix (textDoOpt sep o none) (prefixLayout pre o)
          bm o rest
          ((es.map (fun e => (doOptLayout e o none, e.isBreaking))).drop i) =
        MinSolution (claimCandsFrom (textDoOpt sep o none)
          (prefixLayout pre o) bm o rest
          (es.map (fun e => (doOptLayout e o none, e.isBreaking))) i i) o) := by
  have hlen : 0 < (es.map (fun e => (doOptLayout e o none, e.isBreaking))).length := by
    simp only [List.length_map]
    exact List.length_pos.mpr h
  constructor
  · rw [doOpt_wrap]
    have h0 := wrapSuffix_eq_claim (textDoOpt sep o none)
      (prefixLayout pre o) bm o rest
      (es.map (fun e => (doOptLayout e o none, e.isBreaking))) 0 hlen
    rw [List.drop_zero] at h0
    exact h0
  · intro i hi
    rw [wrapSuffix_eq_claim _ _ _ _ _ _ i hi, claimWrap]

/-- C3 witness: the wrap DP claim at a concrete two-element wrap. -/
theorem wrap_dp_matches_claim_witness :
    ([Block.text "aa" false, Block.text "bb" true] : List Block) ≠ [] ∧
    (doOptLayout (.wrap [Block.text "aa" false, Block.text "bb" true] " " 1 none)
        { } none =
      claimWrap (textDoOpt " " { } none) none 1 { } none
        ([Block.text "aa" false, Block.text "bb" true].map
          (fun e => (doOptLayout e { } none, e.isBreaking))) 0) :=
  ⟨by simp, (wrap_dp_matches_claim [Block.text "aa" false, Block.text "bb" true]
    " " 1 none { } none (by simp)).1⟩

/-! ## Claim C8: singleton `Choice` is the identity for rendering -/

/-- Inserting into a sorted list never produces the empty list. -/
theorem insertSorted_ne_nil (x : ℚ) (l : List ℚ) : insertSorted x l ≠ [] := by
  cases l with
  | nil => simp [insertSorted]
  | cons y rest =>
    unfold insertSorted
    split_ifs <;> simp

/-- Membership in an insertion. -/
theorem mem_insertSorted (x a : ℚ) :
    ∀ l : List ℚ, a ∈ insertSorted x l ↔ a = x ∨ a ∈ l := by
  intro l
  induction l with
  | nil => simp [insertSorted]
  | cons y rest ih =>
    unfold insertSorted
    split_ifs with h1 h2
    · simp [or_assoc]
    · subst h2
      simp
    · simp [ih]
      tauto

/-- Insertion preserves strict sortedness. -/
theorem insertSorted_sorted (x : ℚ) :
    ∀ l : List ℚ, l.Sorted (· < ·) → (insertSorted x l).Sorted (· < ·) := by
  intro l
  induction l with
  | nil => intro _; simp [insertSorted]
  | cons y rest ih =>
    intro hs
    rw [List.sorted_cons] at hs
    obtain ⟨hy, hrest⟩ := hs
    unfold insertSorted
    split_ifs with h1 h2
    · rw [List.sorted_cons]
      constructor
      · intro b hb
        rcases List.mem_cons.mp hb with rfl | hm
        · exact h1
        · exact lt_trans h1 (hy b hm)
      · rw [List.sorted_cons]
        exact ⟨hy, hrest⟩
    · rw [List.sorted_cons]
      exact ⟨hy, hrest⟩
    · rw [List.sorted_cons]
      constructor
      · intro b hb
        rcases (mem_insertSorted x b rest).mp hb with rfl | hm
        · rcases lt_trichotomy b y with h | h | h
          · exact absurd h h1
          · exact absurd h h2
          · exact h
        · exact hy b hm
      · exact ih hrest

/-- `dedupSort` sorts strictly. -/
theorem dedupSort_sorted (l : List ℚ) : (dedupSort l).Sorted (· < ·) := by
  induction l with
  | nil => simp [dedupSort]
  | cons x rest ih => exact insertSorted_sorted x _ ih

/-- `dedupSort` preserves membership. -/
theorem mem_dedupSort (a : ℚ) :
    ∀ l : List ℚ, a ∈ dedupSort l ↔ a ∈ l := by
  intro l
  induction l with
  | nil => simp [dedupSort]
  | cons x rest ih =>
    show a ∈ insertSorted x (dedupSort rest) ↔ _
    rw [mem_insertSorted, ih]
    simp

/-- `dedupSort` of a nonempty list is nonempty. -/
theorem dedupSort_ne_nil (l : List ℚ) (h : l ≠ []) : dedupSort l ≠ [] := by
  cases l with
  | nil => exact absurd rfl h
  | cons x rest => exact insertSorted_ne_nil x _

/-- The head of a weakly sorted list bounds every member. -/
theorem sorted_headD_le (l : List ℚ) (d : ℚ) (hs : l.Sorted (· ≤ ·)) :
    ∀ x ∈ l, l.headD d ≤ x := by
  cases l with
  | nil => intro x hx; cases hx
  | cons a rest =>
    rw [List.sorted_cons] at hs
    intro x hx
    rcases List.mem_cons.mp hx with rfl | hm
    · exact le_refl x
    · exact hs.1 x hm

/-- `dedupSort` keeps the head of a weakly sorted nonempty list. -/
theorem dedupSort_headD (l : List ℚ) (d : ℚ) (h : l ≠ [])
    (hs : l.Sorted (· ≤ ·)) : (dedupSort l).headD d = l.headD d := by
  have hne := dedupSort_ne_nil l h
  have hsd : (dedupSort l).Sorted (· ≤ ·) :=
    (dedupSort_sorted l).imp (fun h => le_of_lt h)
  have h1 : (dedupSort l).headD d ∈ dedupSort l := by
    cases hd : dedupSort l with
    | nil => exact absurd hd hne
    | cons a rest => simp
  have h2 : l.headD d ∈ l := by
    cases hl : l with
    | nil => exact absurd hl h
    | cons a rest => simp
  have h3 : l.headD d ≤ (dedupSort l).headD d :=
    sorted_headD_le l d hs _ ((mem_dedupSort _ l).mp h1)
  have h4 : (dedupSort l).headD d ≤ l.headD d :=
    sorted_headD_le (dedupSort l) d hsd _ ((mem_dedupSort _ l).mpr h2)
  exact le_antisymm h4 h3

/-- An enumerated pair's value is a member of the underlying list. -/
theorem snd_mem_of_mem_enumFrom {α : Type} {p : ℕ × α} :
    ∀ (n : ℕ) (l : List α), p ∈ List.enumFrom n l → p.2 ∈ l := by
  intro n l
  intro hp
  rcases p with ⟨i, x⟩
  have h := List.mem_enumFrom hp
  obtain ⟨h1, h2, h3⟩ := h
  rw [h3]
  exact List.getElem_mem _

/-- When every later knot is strictly above the head, the head's segment is
the first one. -/
theorem segIdx_head (s : Solution) (k : ℚ) (rest : List ℚ)
    (hk : s.knots = k :: rest) (hlt : ∀ x ∈ rest, k < x) :
    s.segIdx k = 0 := by
  unfold Solution.segIdx
  rw [hk, List.enum_cons]
  have hnil : (List.enumFrom 1 rest).filter (fun p => decide (p.2 ≤ k)) = [] := by
    rw [List.filter_eq_nil_iff]
    intro p hp
    have := hlt p.2 (snd_mem_of_mem_enumFrom 1 rest hp)
    simp
    linarith
  rw [List.filter_cons]
  simp only [decide_eq_true_eq]
  rw [if_pos (le_refl k), hnil]
  rfl

/-- The segment index is always a valid knot index. -/
theorem segIdx_lt (s : Solution) (k : ℚ) (h : s.knots ≠ []) :
    s.segIdx k < s.knots.length := by
  unfold Solution.segIdx
  cases hf : (s.knots.enum.filter (fun p => p.2 ≤ k)).getLast? with
  | none => exact List.length_pos.mpr h
  | some p =>
    have hm : p ∈ s.knots.enum.filter (fun q => decide (q.2 ≤ k)) :=
      List.mem_of_mem_getLast? hf
    have hm2 : p ∈ s.knots.enum := List.mem_of_mem_filter hm
    rcases p with ⟨i, x⟩
    exact (List.mem_enum hm2).1

/-- A solution whose knots are strictly ascending, nonempty, and parallel to
its other sequences is well-formed. -/
theorem wf_of_parts (s : Solution) (hne : s.knots ≠ [])
    (hsort : s.knots.Sorted (· < ·))
    (h1 : s.spans.length = s.knots.length)
    (h2 : s.costs.length = s.knots.length)
    (h3 : s.slopes.length = s.knots.length)
    (h4 : s.layouts.length = s.knots.length) : s.Wf := by
  refine ⟨hne, h1, h2, h3, h4, hsort.imp (fun h => le_of_lt h), ?_⟩
  cases hk : s.knots with
  | nil => exact absurd hk hne
  | cons k rest =>
    have hlt : ∀ x ∈ rest, k < x := by
      have := hsort
      rw [hk, List.sorted_cons] at this
      exact this.1
    unfold Solution.layoutAt
    rw [show ((k :: rest).headD 0) = k from rfl]
    rw [segIdx_head s k rest hk hlt]
    cases hl : s.layouts with
    | nil =>
      exfalso
      rw [hl, hk] at h4
      simp at h4
    | cons L ls => rfl

/-- The degenerate solution is well-formed. -/
theorem degenerate_wf : Solution.degenerate.Wf := by
  refine ⟨by simp [Solution.degenerate], rfl, rfl, rfl, rfl, ?_, rfl⟩
  simp [Solution.degenerate]

/-- `PlusConst` preserves well-formedness. -/
theorem plusConst_wf (s : Solution) (c : ℚ) (h : s.Wf) : (s.PlusConst c).Wf := by
  obtain ⟨h0, h1, h2, h3, h4, h5, h6⟩ := h
  exact ⟨h0, h1, by simpa [Solution.PlusConst] using h2, h3, h4, h5, h6⟩

/-- `PlusConst` keeps the knot list. -/
theorem plusConst_knots (s : Solution) (c : ℚ) :
    (s.PlusConst c).knots = s.knots := rfl

/-- Horizontal composition with a real continuation yields a well-formed
solution as soon as the left side has a knot. -/
theorem withRestOfLine_some_wf (s r : Solution) (h : s.knots ≠ []) :
    (s.WithRestOfLine (some r)).Wf := by
  apply wf_of_parts
  · show dedupSort (s.knots ++ shiftedKnots s r) ≠ []
    apply dedupSort_ne_nil
    simp [h]
  · exact dedupSort_sorted _
  · simp [Solution.WithRestOfLine]
  · simp [Solution.WithRestOfLine]
  · simp [Solution.WithRestOfLine]
  · simp [Solution.WithRestOfLine]

/-- `WithRestOfLine` preserves well-formedness. -/
theorem withRestOfLine_wf (s : Solution) (r : Option Solution) (h : s.Wf) :
    (s.WithRestOfLine r).Wf := by
  cases r with
  | none => exact h
  | some r2 => exact withRestOfLine_some_wf s r2 h.1

/-- `WithRestOfLine` leaves a nonempty knot list nonempty. -/
theorem withRestOfLine_knots_ne_nil (s : Solution) (r : Option Solution)
    (h : s.knots ≠ []) : (s.WithRestOfLine r).knots ≠ [] := by
  cases r with
  | none => exact h
  | some r2 =>
    show dedupSort (s.knots ++ shiftedKnots s r2) ≠ []
    apply dedupSort_ne_nil
    simp [h]

/-- Transport of the head-layout condition along a knot-preserving,
layout-mapping construction. -/
theorem layoutAtHead_map (s out : Solution) (f : Layout → Layout)
    (hk : out.knots = s.knots) (hl : out.layouts = s.layouts.map f)
    (hlen : s.layouts.length = s.knots.length) (hne : s.knots ≠ [])
    (h6 : s.layoutAt (s.knots.headD 0) = s.layouts.headD ⟨[]⟩) :
    out.layoutAt (out.knots.headD 0) = out.layouts.headD ⟨[]⟩ := by
  have hseg : ∀ k, out.segIdx k = s.segIdx k := by
    intro k
    unfold Solution.segIdx
    rw [hk]
  unfold Solution.layoutAt
  rw [hseg, hk, hl]
  have hidx : s.segIdx (s.knots.headD 0) < s.layouts.length := by
    rw [hlen]
    exact segIdx_lt s _ hne
  have hlen0 : 0 < s.layouts.length := by
    rw [hlen]
    exact List.length_pos.mpr hne
  unfold Solution.layoutAt at h6
  rw [List.getD_eq_getElem _ _ (by simpa using hidx), List.getElem_map]
  rw [List.getD_eq_getElem _ _ hidx] at h6
  rw [h6]
  cases hlcase : s.layouts with
  | nil =>
    rw [hlcase] at hlen0
    simp at hlen0
  | cons L ls =>
    rfl

/-- A vertical sum of a nonempty list whose head is well-formed is `some` of
a well-formed solution. -/
theorem vsum_wf (s0 : Solution) (tail : List Solution) (o : Options)
    (h : s0.Wf) :
    ∃ out, VSumSolution (s0 :: tail) o = some out ∧ out.Wf ∧
      out.knots = s0.knots := by
  obtain ⟨h0, h1, h2, h3, h4, h5, h6⟩ := h
  refine ⟨_, rfl, ?_, rfl⟩
  refine ⟨h0, by simp, by simpa using h2, h3, by simpa using h4, h5, ?_⟩
  exact layoutAtHead_map s0 _ (fun L => ⟨L.elems ++ vsumTail tail⟩) rfl rfl h4
    h0 h6

/-- A solution whose stored layouts are all equal satisfies the head-layout
condition. -/
theorem layoutAtHead_of_const (s : Solution) (L0 : Layout)
    (hne : s.knots ≠ []) (hlen : s.layouts.length = s.knots.length)
    (hall : ∀ L ∈ s.layouts, L = L0) :
    s.layoutAt (s.knots.headD 0) = s.layouts.headD ⟨[]⟩ := by
  have hidx : s.segIdx (s.knots.headD 0) < s.layouts.length := by
    rw [hlen]
    exact segIdx_lt s _ hne
  have hlen0 : 0 < s.layouts.length := by
    rw [hlen]
    exact List.length_pos.mpr hne
  unfold Solution.layoutAt
  rw [List.getD_eq_getElem _ _ hidx]
  rw [hall _ (List.getElem_mem hidx)]
  cases hl : s.layouts with
  | nil =>
    rw [hl] at hlen0
    simp at hlen0
  | cons L ls =>
    have : L = L0 := hall L (by rw [hl]; exact List.mem_cons_self L ls)
    simp [this]

/-- The solution of a `TextBlock` (before composition) is well-formed under
valid options. -/
theorem textSolution_wf (t : String) (o : Options) (hv : o.Valid) :
    (textSolution t o).Wf := by
  obtain ⟨v1, v2, _, _, _, _⟩ := hv
  unfold textSolution
  dsimp only
  split_ifs with hb1 hb2
  · apply wf_of_parts <;> simp
  · apply wf_of_parts <;> simp
    have h1 : (t.length : ℤ) < o.margin_1 := by omega
    have h2 : ((t.length : ℤ) : ℚ) < ((o.margin_1 : ℤ) : ℚ) := by
      exact_mod_cast h1
    push_cast at h2 ⊢
    linarith
  · have h1 : (t.length : ℤ) < o.margin_0 := by omega
    have h2 : ((t.length : ℤ) : ℚ) < ((o.margin_0 : ℤ) : ℚ) := by
      exact_mod_cast h1
    have h3 : ((o.margin_0 : ℤ) : ℚ) ≤ ((o.margin_1 : ℤ) : ℚ) := by
      exact_mod_cast v2
    push_cast at h2 h3
    refine ⟨by simp, rfl, rfl, rfl, rfl, ?_, ?_⟩
    · simp [List.sorted_cons]
      constructor
      · constructor <;> linarith
      · linarith
    · apply layoutAtHead_of_const _ ⟨[LayoutElement.str t]⟩ (by simp) rfl
      intro L hL
      simp only [List.mem_cons, List.not_mem_nil, or_false] at hL
      rcases hL with rfl | rfl | rfl <;> rfl

/-- A solution whose stored layouts are pairwise equal satisfies the
head-layout condition. -/
theorem layoutAtHead_of_pairwise (s : Solution)
    (hne : s.knots ≠ []) (hlen : s.layouts.length = s.knots.length)
    (hall : ∀ L1 ∈ s.layouts, ∀ L2 ∈ s.layouts, L1 = L2) :
    s.layoutAt (s.knots.headD 0) = s.layouts.headD ⟨[]⟩ := by
  have hidx : s.segIdx (s.knots.headD 0) < s.layouts.length := by
    rw [hlen]
    exact segIdx_lt s _ hne
  have hlen0 : 0 < s.layouts.length := by
    rw [hlen]
    exact List.length_pos.mpr hne
  unfold Solution.layoutAt
  rw [List.getD_eq_getElem _ _ hidx]
  have h0 : s.layouts.headD ⟨[]⟩ = s.layouts.get ⟨0, hlen0⟩ := by
    rw [List.headD_eq_head?, List.head?_eq_getElem?,
      List.getElem?_eq_getElem hlen0]
    rfl
  rw [h0]
  exact hall _ (List.getElem_mem hidx) _ (List.getElem_mem hlen0)

/-- The solution of a `VerbBlock` is well-formed under valid options. -/
theorem verbSolution_wf (lines : List String) (fnl : Bool) (o : Options)
    (hv : o.Valid) : (verbSolution lines fnl o).Wf := by
  obtain ⟨v1, v2, _, _, _, _⟩ := hv
  have h3 : ((0 : ℚ)) ≤ ((o.margin_0 : ℤ) : ℚ) := by exact_mod_cast v1
  have h4 : ((o.margin_0 : ℤ) : ℚ) ≤ ((o.margin_1 : ℤ) : ℚ) := by
    exact_mod_cast v2
  unfold verbSolution
  simp only [SolutionFactory.Append, SolutionFactory.MkSolution]
  by_cases hm : 0 < o.margin_0
  · rw [if_pos hm]
    have h5 : (0 : ℚ) < ((o.margin_0 : ℤ) : ℚ) := by exact_mod_cast hm
    refine ⟨by simp, by simp, by simp, by simp, by simp, ?_, ?_⟩
    · simp [List.sorted_cons]
      push_cast at h4 h5 ⊢
      constructor
      · constructor <;> linarith
      · linarith
    · apply layoutAtHead_of_pairwise _ (by simp) (by simp)
      intro L1 hL1 L2 hL2
      simp at hL1 hL2
      rcases hL1 with rfl | rfl | rfl <;> rcases hL2 with rfl | rfl | rfl <;> rfl
  · rw [if_neg hm]
    refine ⟨by simp, by simp, by simp, by simp, by simp, ?_, ?_⟩
    · simp [List.sorted_cons]
      push_cast at h4 ⊢
      linarith
    · apply layoutAtHead_of_pairwise _ (by simp) (by simp)
      intro L1 hL1 L2 hL2
      simp at hL1 hL2
      rcases hL1 with rfl | rfl <;> rcases hL2 with rfl | rfl <;> rfl

/-- The chosen minimum comes from the candidate list. -/
theorem pickMin_mem : ∀ (l : List (ℚ × Nat)) (p : ℚ × Nat),
    pickMin l = some p → p ∈ l := by
  have aux : ∀ (l : List (ℚ × Nat)) (acc : Option (ℚ × Nat)) (p : ℚ × Nat),
      l.foldl (fun best q =>
        match best with
        | none => some q
        | some w => if q.1 < w.1 then some q else some w) acc = some p →
      p ∈ l ∨ acc = some p := by
    intro l
    induction l with
    | nil =>
      intro acc p h
      exact Or.inr h
    | cons a rest ih =>
      intro acc p h
      rw [List.foldl_cons] at h
      rcases ih _ p h with hm | hacc
      · exact Or.inl (List.mem_cons_of_mem a hm)
      · cases acc with
        | none =>
          simp at hacc
          exact Or.inl (hacc ▸ List.mem_cons_self a rest)
        | some w =>
          dsimp only at hacc
          by_cases hlt : a.1 < w.1
          · rw [if_pos hlt] at hacc
            simp at hacc
            exact Or.inl (hacc ▸ List.mem_cons_self a rest)
          · rw [if_neg hlt] at hacc
            exact Or.inr hacc
  intro l p h
  rcases aux l none p h with hm | hacc
  · exact hm
  · cases hacc

/-- Every crossing candidate lies strictly inside the interval. -/
theorem crossCands_bounds (cs : List Solution) (w : Nat) (a : ℚ)
    (b : Option ℚ) (p : ℚ × Nat) (hp : p ∈ crossCands cs w a b) :
    a < p.1 ∧ ∀ bb, b = some bb → p.1 < bb := by
  unfold crossCands at hp
  rw [List.mem_filterMap] at hp
  obtain ⟨j, _, hj⟩ := hp
  by_cases hw : j = w
  · rw [if_pos hw] at hj
    cases hj
  · rw [if_neg hw] at hj
    cases hc : crossingCol cs w j a with
    | none =>
      rw [hc] at hj
      cases hj
    | some c =>
      rw [hc] at hj
      dsimp only at hj
      by_cases hcond : (decide (a < c) && b.all (fun bb => decide (c < bb))) = true
      · rw [if_pos hcond] at hj
        cases hj
        rw [Bool.and_eq_true] at hcond
        obtain ⟨h1, h2⟩ := hcond
        refine ⟨by simpa using h1, ?_⟩
        intro bb hbb
        subst hbb
        simpa using h2
      · rw [if_neg hcond] at hj
        cases hj

/-- The earliest crossing lies strictly inside the interval. -/
theorem earliestCrossing_bounds (cs : List Solution) (w : Nat) (a : ℚ)
    (b : Option ℚ) (c : ℚ) (j : Nat)
    (h : earliestCrossing cs w a b = some (c, j)) :
    a < c ∧ ∀ bb, b = some bb → c < bb :=
  crossCands_bounds cs w a b (c, j) (pickMin_mem _ _ h)

/-- The pieces of one envelope interval: nonempty, headed by the interval
start, contained in the interval, and strictly ascending. -/
theorem ipGo_facts (cs : List Solution) (b : Option ℚ) :
    ∀ (fuel : Nat) (a : ℚ) (w : Nat), (∀ bb, b = some bb → a < bb) →
      ipGo cs b fuel a w ≠ [] ∧
      (ipGo cs b fuel a w).head? = some (a, w) ∧
      (∀ p ∈ ipGo cs b fuel a w, a ≤ p.1 ∧ ∀ bb, b = some bb → p.1 < bb) ∧
      ((ipGo cs b fuel a w).map Prod.fst).Sorted (· < ·) := by
  intro fuel
  induction fuel with
  | zero =>
    intro a w hab
    refine ⟨by simp [ipGo], by simp [ipGo], ?_, by simp [ipGo]⟩
    intro p hp
    simp [ipGo] at hp
    subst hp
    exact ⟨le_refl a, hab⟩
  | succ fuel ih =>
    intro a w hab
    rw [show ipGo cs b (fuel + 1) a w =
      (match earliestCrossing cs w a b with
       | none => [(a, w)]
       | some (c, j) => (a, w) :: ipGo cs b fuel c j) from rfl]
    cases hec : earliestCrossing cs w a b with
    | none =>
      refine ⟨by simp, by simp, ?_, by simp⟩
      intro p hp
      simp at hp
      subst hp
      exact ⟨le_refl a, hab⟩
    | some cj =>
      rcases cj with ⟨c, j⟩
      have hbnd := earliestCrossing_bounds cs w a b c j hec
      have hrec := ih c j (fun bb hbb => hbnd.2 bb hbb)
      obtain ⟨hne, hhead, hbound, hsort⟩ := hrec
      refine ⟨by simp, by simp, ?_, ?_⟩
      · intro p hp
        rcases List.mem_cons.mp hp with rfl | hm
        · exact ⟨le_refl a, hab⟩
        · have h2 := hbound p hm
          exact ⟨le_trans (le_of_lt hbnd.1) h2.1, h2.2⟩
      · rw [List.map_cons, List.sorted_cons]
        refine ⟨?_, hsort⟩
        intro x hx
        rw [List.mem_map] at hx
        obtain ⟨p, hp, rfl⟩ := hx
        exact lt_of_lt_of_le hbnd.1 (hbound p hp).1

/-- The full envelope piece list over a strictly sorted knot list: nonempty,
headed at the first knot with the argmin there, bounded below by the first
knot, and strictly ascending. -/
theorem envAll_facts (cs : List Solution) :
    ∀ (mk : List ℚ), mk ≠ [] → mk.Sorted (· < ·) →
      envAll cs mk ≠ [] ∧
      (envAll cs mk).head? = some (mk.headD 0, argminAt cs (mk.headD 0)) ∧
      (∀ p ∈ envAll cs mk, mk.headD 0 ≤ p.1) ∧
      ((envAll cs mk).map Prod.fst).Sorted (· < ·) := by
  intro mk
  induction mk with
  | nil => intro h; exact absurd rfl h
  | cons a rest ih =>
    intro _ hsort
    cases rest with
    | nil =>
      have h := ipGo_facts cs none cs.length a (argminAt cs a)
        (fun bb hbb => by cases hbb)
      obtain ⟨h1, h2, h3, h4⟩ := h
      exact ⟨h1, h2, fun p hp => (h3 p hp).1, h4⟩
    | cons b rest2 =>
      rw [List.sorted_cons] at hsort
      have hab : a < b := hsort.1 b (List.mem_cons_self b rest2)
      have hI := ipGo_facts cs (some b) cs.length a (argminAt cs a)
        (fun bb hbb => by cases hbb; exact hab)
      obtain ⟨hI1, hI2, hI3, hI4⟩ := hI
      have hE := ih (List.cons_ne_nil b rest2) hsort.2
      obtain ⟨hE1, hE2, hE3, hE4⟩ := hE
      rw [show envAll cs (a :: b :: rest2) =
        intervalPieces cs a (some b) ++ envAll cs (b :: rest2) from rfl]
      refine ⟨by simp [intervalPieces, hI1], ?_, ?_, ?_⟩
      · cases hc : intervalPieces cs a (some b) with
        | nil => exact absurd hc hI1
        | cons p ps =>
          rw [show intervalPieces cs a (some b) =
            ipGo cs (some b) cs.length a (argminAt cs a) from rfl] at hc
          rw [hc] at hI2
          simpa using hI2
      · intro p hp
        rcases List.mem_append.mp hp with hm | hm
        · exact (hI3 p hm).1
        · have h2 := hE3 p hm
          simp only [List.headD_cons] at h2 ⊢
          linarith
      · rw [List.map_append]
        refine List.pairwise_append.mpr ⟨hI4, hE4, ?_⟩
        intro x hx y hy
        rw [List.mem_map] at hx hy
        obtain ⟨p, hp, rfl⟩ := hx
        obtain ⟨q, hq, rfl⟩ := hy
        have h1 := (hI3 p hp).2 b rfl
        have h2 := hE3 q hq
        simp only [List.headD_cons] at h2
        linarith

/-- The merged knot set of solutions with nonempty knot lists is nonempty. -/
theorem mergedKnots_ne_nil (c0 : Solution) (cs0 : List Solution)
    (h0 : c0.knots ≠ []) : mergedKnots (c0 :: cs0) ≠ [] := by
  apply dedupSort_ne_nil
  cases hk : c0.knots with
  | nil => exact absurd hk h0
  | cons k ks =>
    intro hcontra
    have hm : k ∈ (c0 :: cs0).flatMap Solution.knots := by
      rw [List.mem_flatMap]
      exact ⟨c0, List.mem_cons_self c0 cs0, by rw [hk]; exact List.mem_cons_self k ks⟩
    rw [hcontra] at hm
    cases hm

/-- The lower envelope of a nonempty list of solutions whose first member is
well-formed is well-formed. -/
theorem minSolution_wf (c0 : Solution) (cs0 : List Solution) (o : Options)
    (h0 : c0.knots ≠ []) : (MinSolution (c0 :: cs0) o).Wf := by
  have hmk_ne : mergedKnots (c0 :: cs0) ≠ [] := mergedKnots_ne_nil c0 cs0 h0
  have hmk_sorted : (mergedKnots (c0 :: cs0)).Sorted (· < ·) :=
    dedupSort_sorted _
  obtain ⟨hE1, hE2, hE3, hE4⟩ :=
    envAll_facts (c0 :: cs0) (mergedKnots (c0 :: cs0)) hmk_ne hmk_sorted
  have hk : (MinSolution (c0 :: cs0) o).knots =
      (envAll (c0 :: cs0) (mergedKnots (c0 :: cs0))).map Prod.fst := rfl
  apply wf_of_parts
  · rw [hk]
    intro hc
    rw [List.map_eq_nil_iff] at hc
    exact hE1 hc
  · rw [hk]
    exact hE4
  · rw [hk]
    show ((envAll (c0 :: cs0) (mergedKnots (c0 :: cs0))).map _).length = _
    simp
  · rw [hk]
    show ((envAll (c0 :: cs0) (mergedKnots (c0 :: cs0))).map _).length = _
    simp
  · rw [hk]
    show ((envAll (c0 :: cs0) (mergedKnots (c0 :: cs0))).map _).length = _
    simp
  · rw [hk]
    show ((envAll (c0 :: cs0) (mergedKnots (c0 :: cs0))).map _).length = _
    simp

/-- With a single candidate, the argmin is always index 0. -/
theorem argminAt_single (s : Solution) (k : ℚ) : argminAt [s] k = 0 := rfl

/-- The head layout of the envelope of a single well-formed solution is that
solution's own head layout. -/
theorem minSolution_single_head (s : Solution) (o : Options) (h : s.Wf) :
    (MinSolution [s] o).layouts.headD ⟨[]⟩ = s.layouts.headD ⟨[]⟩ := by
  obtain ⟨h0, h1, h2, h3, h4, h5, h6⟩ := h
  have hmk_ne : mergedKnots [s] ≠ [] := mergedKnots_ne_nil s [] h0
  have hmk_sorted : (mergedKnots [s]).Sorted (· < ·) := dedupSort_sorted _
  obtain ⟨hE1, hE2, _, _⟩ := envAll_facts [s] (mergedKnots [s]) hmk_ne hmk_sorted
  have hhead_mk : (mergedKnots [s]).headD 0 = s.knots.headD 0 := by
    rw [show mergedKnots [s] = dedupSort ([s].flatMap Solution.knots) from rfl]
    rw [show ([s].flatMap Solution.knots) = s.knots by simp]
    exact dedupSort_headD s.knots 0 h0 h5
  have hl : (MinSolution [s] o).layouts =
      (envAll [s] (mergedKnots [s])).map
        (fun p => (([s]).getD p.2 Solution.degenerate).layoutAt p.1) := rfl
  cases hp : envAll [s] (mergedKnots [s]) with
  | nil => exact absurd hp hE1
  | cons p ps =>
    rw [hp] at hE2
    simp only [List.head?_cons, Option.some.injEq] at hE2
    rw [hl, hp, List.map_cons, List.headD_cons, hE2, argminAt_single]
    show Solution.layoutAt s ((mergedKnots [s]).headD 0) = _
    rw [hhead_mk]
    exact h6

/-- The lower envelope of a nonempty list of well-formed solutions is
well-formed. -/
theorem minSolution_wf_of_mem (cs : List Solution) (o : Options)
    (hne : cs ≠ []) (hall : ∀ c ∈ cs, c.Wf) : (MinSolution cs o).Wf := by
  cases cs with
  | nil => exact absurd rfl hne
  | cons c0 cs0 =>
    exact minSolution_wf c0 cs0 o (hall c0 (List.mem_cons_self c0 cs0)).1

/-- `wrapSuffix` on the empty suffix. -/
theorem wrapSuffix_nil (sepL : Solution) (preL : Option Solution) (bm : ℚ)
    (o : Options) (rest : Option Solution) :
    wrapSuffix sepL preL bm o rest [] = Solution.degenerate := by
  rw [wrapSuffix.eq_def]

/-- `wrapSuffix` on a nonempty suffix. -/
theorem wrapSuffix_cons (sepL : Solution) (preL : Option Solution) (bm : ℚ)
    (o : Options) (rest : Option Solution) (s : Solution) (brk : Bool)
    (tail : List (Solution × Bool)) :
    wrapSuffix sepL preL bm o rest ((s, brk) :: tail) =
      MinSolution
        (candLoop sepL preL bm o rest (specInitLine preL s) brk tail) o := by
  rw [wrapSuffix.eq_def]

/-- The candidate loop on an exhausted suffix. -/
theorem candLoop_nil (sepL : Solution) (preL : Option Solution) (bm : ℚ)
    (o : Options) (rest : Option Solution) (line : Solution) (lb : Bool) :
    candLoop sepL preL bm o rest line lb [] = [line.WithRestOfLine rest] := by
  rw [candLoop.eq_def]

/-- The candidate loop on a remaining suffix. -/
theorem candLoop_cons (sepL : Solution) (preL : Option Solution) (bm : ℚ)
    (o : Options) (rest : Option Solution) (line : Solution) (lb : Bool)
    (s2 : Solution) (b2 : Bool) (rem2 : List (Solution × Bool)) :
    candLoop sepL preL bm o rest line lb ((s2, b2) :: rem2) =
      (if lb then
        [((VSumSolution [line, wrapSuffix sepL preL bm o rest ((s2, b2) :: rem2)]
            o).getD Solution.degenerate).PlusConst
          (o.break_cost * bm +
            o.late_pack_cost * ((((s2, b2) :: rem2).length : ℚ) + 1))]
       else
        ((VSumSolution [line, wrapSuffix sepL preL bm o rest ((s2, b2) :: rem2)]
            o).getD Solution.degenerate).PlusConst
          (o.break_cost * bm +
            o.late_pack_cost * ((((s2, b2) :: rem2).length : ℚ) + 1)) ::
          candLoop sepL preL bm o rest
            (line.WithRestOfLine (some (sepL.WithRestOfLine (some s2)))) b2
            rem2) := by
  rw [candLoop.eq_def]

/-- Well-formedness of the wrap dynamic program: every suffix solution and
every candidate produced by the loop is well-formed. -/
theorem wrap_wf_aux (sepL : Solution) (preL : Option Solution) (bm : ℚ)
    (o : Options) (rest : Option Solution)
    (hpre : ∀ p, preL = some p → p.knots ≠ []) :
    ∀ N : Nat,
      (∀ l : List (Solution × Bool), l.length ≤ N →
        (∀ x ∈ l, Solution.Wf x.1) →
        (wrapSuffix sepL preL bm o rest l).Wf) ∧
      (∀ (l : List (Solution × Bool)) (line : Solution) (lb : Bool),
        l.length ≤ N → (∀ x ∈ l, Solution.Wf x.1) → line.Wf →
        candLoop sepL preL bm o rest line lb l ≠ [] ∧
        ∀ c ∈ candLoop sepL preL bm o rest line lb l, c.Wf) := by
  intro N
  induction N with
  | zero =>
    refine ⟨?_, ?_⟩
    · intro l hlen _
      rw [List.length_eq_zero.mp (Nat.le_zero.mp hlen)]
      rw [wrapSuffix_nil]
      exact degenerate_wf
    · intro l line lb hlen _ hline
      rw [List.length_eq_zero.mp (Nat.le_zero.mp hlen)]
      rw [candLoop_nil]
      refine ⟨by simp, ?_⟩
      intro c hc
      rw [List.mem_singleton] at hc
      subst hc
      exact withRestOfLine_wf line rest hline
  | succ N ih =>
    have p1 : ∀ l : List (Solution × Bool), l.length ≤ N + 1 →
        (∀ x ∈ l, Solution.Wf x.1) →
        (wrapSuffix sepL preL bm o rest l).Wf := by
      intro l hlen hall
      cases l with
      | nil =>
        rw [wrapSuffix_nil]
        exact degenerate_wf
      | cons hd tl =>
        rcases hd with ⟨s, brk⟩
        rw [wrapSuffix_cons]
        have hs : s.Wf := hall (s, brk) (List.mem_cons_self _ _)
        have hline : (specInitLine preL s).Wf := by
          cases hpl : preL with
          | none => simpa [specInitLine] using hs
          | some p =>
            show (p.WithRestOfLine (some s)).Wf
            exact withRestOfLine_some_wf p s (hpre p hpl)
        have htl : tl.length ≤ N := by
          simp only [List.length_cons] at hlen
          omega
        have hcl := ih.2 tl (specInitLine preL s) brk htl
          (fun x hx => hall x (List.mem_cons_of_mem _ hx)) hline
        exact minSolution_wf_of_mem _ o hcl.1 hcl.2
    refine ⟨p1, ?_⟩
    intro l
    induction l with
    | nil =>
      intro line lb _ _ hline
      rw [candLoop_nil]
      refine ⟨by simp, ?_⟩
      intro c hc
      rw [List.mem_singleton] at hc
      subst hc
      exact withRestOfLine_wf line rest hline
    | cons hd rem2 ihl =>
      rcases hd with ⟨s2, b2⟩
      intro line lb hlen hall hline
      rw [candLoop_cons]
      obtain ⟨out, hout, houtwf, _⟩ :=
        vsum_wf line [wrapSuffix sepL preL bm o rest ((s2, b2) :: rem2)] o hline
      rw [hout]
      by_cases hlb : lb
      · rw [if_pos hlb]
        refine ⟨by simp, ?_⟩
        intro c hc
        rw [List.mem_singleton] at hc
        subst hc
        exact plusConst_wf _ _ (by simpa using houtwf)
      · rw [if_neg hlb]
        have hline2 :
            (line.WithRestOfLine (some (sepL.WithRestOfLine (some s2)))).Wf :=
          withRestOfLine_some_wf line _ hline.1
        have hrem : rem2.length ≤ N + 1 := by
          simp only [List.length_cons] at hlen
          omega
        have hrec := ihl
          (line.WithRestOfLine (some (sepL.WithRestOfLine (some s2)))) b2 hrem
          (fun x hx => hall x (List.mem_cons_of_mem _ hx)) hline2
        refine ⟨by simp, ?_⟩
        intro c hc
        rcases List.mem_cons.mp hc with rfl | hm
        · exact plusConst_wf _ _ (by simpa using houtwf)
        · exact hrec.2 c hm

/-- A right fold composing optimal layouts along a line yields a well-formed
solution whenever the children's layouts and the initial accumulator do. -/
theorem foldr_line_wf (o : Options) (N : Nat)
    (hIH : ∀ b : Block, b.msize ≤ N → ∀ r : Option Solution,
      (∀ s, r = some s → s.Wf) → (doOptLayout b o r).Wf) :
    ∀ (ln : List Block), (∀ b ∈ ln, b.msize ≤ N) →
      ∀ (init : Option Solution), (∀ s, init = some s → s.Wf) →
      ∀ s, ln.foldr (fun b acc => some (doOptLayout b o acc)) init = some s →
        s.Wf := by
  intro ln
  induction ln with
  | nil =>
    intro _ init hinit s h
    exact hinit s h
  | cons b rest ihr =>
    intro hb init hinit s h
    rw [List.foldr_cons] at h
    injection h with h2
    rw [← h2]
    apply hIH b (hb b (List.mem_cons_self b rest))
    intro s2 hs2
    exact ihr (fun b2 h2 => hb b2 (List.mem_cons_of_mem b h2)) init hinit s2 hs2

/-- Every member of `reduceOption` of a list of possibly-missing well-formed
solutions is well-formed. -/
theorem mem_reduceOption_wf (l : List (Option Solution))
    (h : ∀ x ∈ l, ∀ s, x = some s → s.Wf) :
    ∀ s ∈ l.reduceOption, s.Wf := by
  intro s hs
  rw [List.reduceOption_mem_iff] at hs
  exact h (some s) hs s rfl

/-- A vertical sum (defaulted to the degenerate solution when empty) plus a
constant is well-formed when every summand is. -/
theorem vsum_getD_plusConst_wf (l : List Solution) (o : Options) (c : ℚ)
    (hall : ∀ s ∈ l, s.Wf) :
    (((VSumSolution l o).getD Solution.degenerate).PlusConst c).Wf := by
  cases l with
  | nil => exact plusConst_wf _ _ degenerate_wf
  | cons s0 tl =>
    obtain ⟨out, hout, houtwf, _⟩ := vsum_wf s0 tl o
      (hall s0 (List.mem_cons_self s0 tl))
    rw [hout]
    exact plusConst_wf _ _ houtwf

/-- The stack-shaped vertical sum (falling back to the continuation when the
sum is empty) plus a constant is well-formed when every summand is. -/
theorem vsum_match_wf (l : List Solution) (o : Options) (c : ℚ)
    (r : Option Solution) (hall : ∀ s ∈ l, s.Wf) (hne : l ≠ [])
    (hr : ∀ s, r = some s → s.Wf) :
    (match VSumSolution l o with
     | none => r.getD Solution.degenerate
     | some s => s.PlusConst c).Wf := by
  cases l with
  | nil => exact absurd rfl hne
  | cons s0 tl =>
    obtain ⟨out, hout, houtwf, _⟩ := vsum_wf s0 tl o
      (hall s0 (List.mem_cons_self s0 tl))
    rw [hout]
    exact plusConst_wf _ _ houtwf

/-- Every solution computed by `doOptLayout` under valid options and a
well-formed (or absent) continuation is well-formed: nonempty ascending
knots, parallel sequences, and a head layout stored first. -/
theorem doOpt_wf : ∀ (N : Nat) (b : Block) (o : Options) (r : Option Solution),
    b.msize ≤ N → o.Valid → (∀ s, r = some s → s.Wf) →
    (doOptLayout b o r).Wf := by
  intro N
  induction N with
  | zero =>
    intro b o r hle _ _
    have := Block.msize_pos b
    omega
  | succ N ih =>
    intro b o r hle hv hr
    cases b with
    | text t br =>
      rw [doOpt_text]
      exact withRestOfLine_wf _ r (textSolution_wf t o hv)
    | verb lines br fnl =>
      rw [doOpt_verb]
      exact verbSolution_wf lines fnl o hv
    | line es =>
      cases es with
      | nil =>
        rw [show doOptLayout (.line []) o r = r.getD Solution.degenerate from by
          simp [doOptLayout]]
        cases r with
        | none => exact degenerate_wf
        | some s => exact hr s rfl
      | cons e0 es0 =>
        rw [doOpt_line_cons]
        have hsome : ∀ x ∈ (hookLines o (e0 :: es0)).1.enum.map (fun p =>
            p.2.foldr (fun b acc => some (doOptLayout b o acc))
              (if p.1 = (hookLines o (e0 :: es0)).1.length - 1 then r
               else none)),
            ∀ s, x = some s → s.Wf := by
          intro x hx s hxs
          rw [List.mem_map] at hx
          obtain ⟨p, hp, rfl⟩ := hx
          have hln : p.2 ∈ (hookLines o (e0 :: es0)).1 :=
            snd_mem_of_mem_enumFrom 0 _ hp
          have hbd : ∀ b2 ∈ p.2, b2.msize ≤ N := by
            intro b2 hb2
            have hfl : b2 ∈ (hookLines o (e0 :: es0)).1.flatten :=
              List.mem_flatten.mpr ⟨p.2, hln, hb2⟩
            have hm := (hookLines o (e0 :: es0)).2 b2 hfl
            have := Block.msize_le_of_mem hm
            simp only [Block.msize] at hle
            omega
          apply foldr_line_wf o N
            (fun b2 h2 r2 hr2 => ih b2 o r2 h2 hv hr2) p.2 hbd _ ?_ s hxs
          intro s2 hs2
          split at hs2
          · exact hr s2 hs2
          · cases hs2
        have hro := mem_reduceOption_wf _ hsome
        exact vsum_getD_plusConst_wf _ o _ hro
    | choice es =>
      rw [doOpt_choice]
      cases es with
      | nil => exact degenerate_wf
      | cons e0 es0 =>
        apply minSolution_wf_of_mem
        · simp
        · intro c hc
          rw [List.mem_map] at hc
          obtain ⟨e, he, rfl⟩ := hc
          have hm : e.msize ≤ N := by
            have := Block.msize_le_of_mem he
            simp only [Block.msize] at hle
            omega
          exact ih e o r hm hv hr
    | stack es bm =>
      cases es with
      | nil =>
        rw [show doOptLayout (.stack [] bm) o r = r.getD Solution.degenerate
          from by simp [doOptLayout]]
        cases r with
        | none => exact degenerate_wf
        | some s => exact hr s rfl
      | cons e0 es0 =>
        rw [doOpt_stack_cons]
        have hall : ∀ x ∈ (e0 :: es0).dropLast.map (fun e => doOptLayout e o none) ++
            [doOptLayout ((e0 :: es0).getLast (List.cons_ne_nil e0 es0)) o r],
            x.Wf := by
          intro x hx
          rw [List.mem_append] at hx
          rcases hx with hx | hx
          · rw [List.mem_map] at hx
            obtain ⟨e, he, rfl⟩ := hx
            have he2 : e ∈ e0 :: es0 := (List.dropLast_sublist _).subset he
            have hm : e.msize ≤ N := by
              have := Block.msize_le_of_mem he2
              simp only [Block.msize] at hle
              omega
            exact ih e o none hm hv (fun _ h => by cases h)
          · rw [List.mem_singleton] at hx
            subst hx
            have hg : (e0 :: es0).getLast (List.cons_ne_nil e0 es0) ∈
                e0 :: es0 := List.getLast_mem _
            have hm : ((e0 :: es0).getLast (List.cons_ne_nil e0 es0)).msize ≤ N := by
              have := Block.msize_le_of_mem hg
              simp only [Block.msize] at hle
              omega
            exact ih _ o r hm hv hr
        exact vsum_match_wf _ o _ r hall (by simp) hr
    | wrap es sep bm pre =>
      rw [doOpt_wrap]
      have hpre : ∀ p, prefixLayout pre o = some p →
          p.knots ≠ [] := by
        intro p hp
        cases pre with
        | none => cases hp
        | some q =>
          simp only [prefixLayout] at hp
          by_cases hq : q = ""
          · rw [if_pos hq] at hp
            cases hp
          · rw [if_neg hq] at hp
            injection hp with hp2
            rw [← hp2]
            exact (textSolution_wf q o hv).1
      have hall : ∀ x ∈ es.map (fun e => (doOptLayout e o none, e.isBreaking)),
          Solution.Wf x.1 := by
        intro x hx
        rw [List.mem_map] at hx
        obtain ⟨e, he, rfl⟩ := hx
        have hm : e.msize ≤ N := by
          have := Block.msize_le_of_mem he
          simp only [Block.msize] at hle
          omega
        exact ih e o none hm hv (fun _ h => by cases h)
      exact (wrap_wf_aux (textDoOpt sep o none)
        (prefixLayout pre o) bm o r hpre
        (es.map (fun e => (doOptLayout e o none, e.isBreaking))).length).1 _
        (le_refl _) hall
    | joinedLine es j jb =>
      cases es with
      | nil =>
        rw [show doOptLayout (.joinedLine [] j jb) o r = textDoOpt "" o r
          from by simp [doOptLayout]]
        exact withRestOfLine_wf _ r (textSolution_wf "" o hv)
      | cons e1 rest1 =>
        cases rest1 with
        | nil =>
          rw [doOpt_joined_single]
          have hm : e1.msize ≤ N := by
            have := Block.msize_pos j
            simp only [Block.msize, Block.msizeList, List.length_cons] at hle
            omega
          exact ih e1 o r hm hv hr
        | cons e2 rest2 =>
          rw [doOpt_joined_cons]
          have hjl := joinList_msize j jb (e1 :: e2 :: rest2)
          have hj := Block.msize_pos j
          have hle2 : (Block.line (joinList j jb (e1 :: e2 :: rest2))).msize ≤ N := by
            simp only [Block.msize, Block.msizeList, List.length_cons] at hle hjl ⊢
            omega
          exact ih _ o r hle2 hv hr

/-! ## Claim C8: rendering `Choice([t])` equals rendering `t` -/

/-- C8: for every block tree `t` and every valid options value, rendering
`ChoiceBlock([t])` yields output identical, character for character, to
rendering `t` itself: the lower envelope of a single candidate starts with
that candidate's piece, so the emitted head layout is unchanged. -/
theorem choice_singleton_render (t : Block) (o : Options) (hv : o.Valid) :
    render (.choice [t]) o = render t o := by
  unfold render
  rw [doOpt_choice]
  rw [show ([t].map (fun e => doOptLayout e o none)) =
    [doOptLayout t o none] from rfl]
  have hwf : (doOptLayout t o none).Wf :=
    doOpt_wf t.msize t o none (le_refl _) hv (fun _ h => by cases h)
  rw [minSolution_single_head (doOptLayout t o none) o hwf]

/-- Witness for C8 at a concrete block and options value. -/
theorem choice_singleton_render_witness :
    (Options.mk 0 0 0 0 0 0 none).Valid ∧
    render (.choice [.text "hi" false]) (Options.mk 0 0 0 0 0 0 none) =
      render (.text "hi" false) (Options.mk 0 0 0 0 0 0 none) :=
  ⟨by decide, choice_singleton_render (.text "hi" false) _ (by decide)⟩
